import Mathlib

/-!
Verification of the availability matching and overlap-analytics engine of the
event-coordinator repository.

The definitions below are a shallow embedding of the Python source:
  * `organizations/analytics.py` — the decomposer pipeline
    (`collect_subscriber_slots`, `find_time_boundaries`, `analyze_time_periods`,
    `calculate_slot_scores`, `prepare_weekly_summary`, `get_availability_analytics`);
  * `accounts/services/availability_service.py` — the event matcher
    (`_check_event_match`, `_times_overlap`, `user_matches_event`,
    `anonymous_matches_event`);
  * `organizations/views.py` `availability_analytics` — the ranking of scored slots.

Conventions of the embedding:
  * times-of-day are minutes since midnight (`time_to_minutes` is applied at the
    parse boundary, so a parsed `HH:MM` text is represented directly by its
    minute value);
  * Python `datetime.date` values are represented by a `Date` record carrying the
    fields the engine reads: a linear ordinal (for identity and order), the
    weekday (`date.weekday()`, 0 = Monday) and the day-of-month (`date.day`);
  * Python string keys such as `"YYYY-MM-DD HH:MM-HH:MM"` are represented by the
    underlying `(Date, startMinute, endMinute)` values; the `strftime` formats
    used by the source are injective on real dates and on minute values below
    1440, so the key space is faithfully preserved;
  * dicts that the source fills and then iterates in insertion order are
    represented by lists in the same insertion order;
  * a raised exception is represented by `Except.error`.
-/

/-- Subscriber identity, `"user_{id}"` or `"anon_{id}"` in the source.
Deduplication is always by this identity. -/
inductive SubId
  | user (n : Nat)
  | anon (n : Nat)
  deriving DecidableEq, Repr

/-- The `availability_type` column: `'sure'` or `'maybe'`. -/
inductive Conf
  | sure
  | maybe
  deriving DecidableEq, Repr

/-- A calendar date as read by the engine: `ord` is a linear day ordinal
(identity and chronological order), `weekday` is Python's `date.weekday()`
(0 = Monday), `day` is the day-of-month `date.day`. -/
structure Date where
  ord : Nat
  weekday : Nat
  day : Nat
  deriving DecidableEq, Repr

/-- A naive local timestamp as read by the matcher: its calendar date and its
time-of-day in minutes since midnight (`.date()` and `.time()` in the source;
the engine only ever reads hour and minute of a time). -/
structure DateTime where
  date : Date
  minutes : Nat
  deriving DecidableEq, Repr

/-- One entry of the `time_slots` JSON list: the raw `'start'` and `'end'`
texts, still unparsed. -/
structure TimeSlotText where
  startS : String
  endS : String
  deriving DecidableEq, Repr

/-- The owner of an availability record (a registered user or an anonymous
subscription), with the display fields the engine copies around. -/
structure Subscriber where
  id : SubId
  name : String
  email : String
  deriving DecidableEq, Repr

/-- A `UserAvailability` record as the engine reads it.  `owner` is `none` when
neither `user` nor `anonymous_subscription` is set (the source then skips the
record). -/
structure Availability where
  owner : Option Subscriber
  recurrence_type : String
  day_of_week : Option Nat
  day_of_month : Option Nat
  specific_date : Option Date
  time_slots : List TimeSlotText
  availability_type : Conf
  deriving DecidableEq, Repr

/-- Split a character list at every `':'` (the shape `%H:%M` expects exactly
one separator, checked by the caller). -/
def splitOnColon : List Char → List (List Char)
  | [] => [[]]
  | c :: rest =>
    let r := splitOnColon rest
    if c = ':' then [] :: r
    else
      match r with
      | [] => [[c]]
      | g :: gs => (c :: g) :: gs

/-- Numeric value of a digit run, `none` on the first non-digit. -/
def digitsValAux : List Char → Nat → Option Nat
  | [], acc => some acc
  | c :: rest, acc =>
    if c.isDigit then digitsValAux rest (acc * 10 + (c.toNat - 48)) else none

/-- Numeric value of a non-empty digit run. -/
def digitsVal : List Char → Option Nat
  | [] => none
  | cs => digitsValAux cs 0

/-- `datetime.strptime(text, '%H:%M').time()` followed by `time_to_minutes`:
parses `H:MM`/`HH:MM` text into minutes since midnight, `none` when the text
does not match the format (the source raises `ValueError` there).  `%H` and
`%M` each consume one or two digits, the hour must be below 24 and the minute
below 60. -/
def parseHHMM (s : String) : Option Nat :=
  match splitOnColon s.data with
  | [h, m] =>
    match digitsVal h, digitsVal m with
    | some hv, some mv =>
      if h.length ≤ 2 ∧ m.length ≤ 2 ∧ hv < 24 ∧ mv < 60 then
        some (hv * 60 + mv)
      else
        none
    | _, _ => none
  | _ => none

/-! ## Event matcher — `accounts/services/availability_service.py` -/

/-- `AvailabilityService._times_overlap`: strict half-open overlap of two
minute ranges. -/
def timesOverlap (start1 end1 start2 end2 : Nat) : Bool :=
  decide (start1 < end2) && decide (start2 < end1)

/-- One iteration of the slot loop of `_check_event_match`: parse the slot's
texts and test overlap; an unparsable slot is skipped (the source catches
`KeyError, ValueError, TypeError` and continues). -/
def slotMatches (eventStart eventEnd : Nat) (ts : TimeSlotText) : Bool :=
  match parseHHMM ts.startS, parseHHMM ts.endS with
  | some slotStart, some slotEnd => timesOverlap eventStart eventEnd slotStart slotEnd
  | _, _ => false

/-- The recurrence test of `_check_event_match`: a `weekly` rule applies when
the event weekday equals `day_of_week`, a `specific_date` rule when the event
date equals `specific_date`; any other recurrence type (in particular
`monthly`) is skipped. -/
def eventRuleApplies (a : Availability) (d : Date) : Bool :=
  if a.recurrence_type = "weekly" then a.day_of_week == some d.weekday
  else if a.recurrence_type = "specific_date" then a.specific_date == some d
  else false

/-- An event as `_check_event_match` reads it after the attribute accesses
succeeded: `start_datetime` and the optional `end_datetime`. -/
structure EventT where
  startDT : DateTime
  endDT : Option DateTime
  deriving DecidableEq, Repr

/-- `event.start_datetime.time()` in minutes. -/
def eventStartMinutes (e : EventT) : Nat := e.startDT.minutes

/-- `event.end_datetime.time() if event.end_datetime else event_start_time`. -/
def eventEndMinutes (e : EventT) : Nat :=
  match e.endDT with
  | some dt => dt.minutes
  | none => e.startDT.minutes

/-- `AvailabilityService._check_event_match`: false when the subscriber has no
records, otherwise true iff some record applies to the event's date and some of
its slots overlaps the event's time span. -/
def checkEventMatch (avails : List Availability) (e : EventT) : Bool :=
  if avails.isEmpty then false
  else
    avails.any fun a =>
      eventRuleApplies a e.startDT.date &&
        a.time_slots.any (slotMatches (eventStartMinutes e) (eventEndMinutes e))

/-- An event value before the attribute accesses: `start_datetime` may be
absent/malformed (`none` models the `AttributeError` path that the public
wrappers catch). -/
structure EventRec where
  start_datetime : Option DateTime
  end_datetime : Option DateTime
  deriving DecidableEq, Repr

/-- `_check_event_match` as a fallible computation over a raw event record:
reading a missing `start_datetime` raises. -/
def checkEventMatchE (avails : List Availability) (er : EventRec) : Except String Bool :=
  match er.start_datetime with
  | none => .error "AttributeError"
  | some s => .ok (checkEventMatch avails ⟨s, er.end_datetime⟩)

/-- `AvailabilityService.user_matches_event`: delegates to
`_check_event_match`, catching every exception and returning `False`. -/
def user_matches_event (avails : List Availability) (er : EventRec) : Bool :=
  match checkEventMatchE avails er with
  | .ok b => b
  | .error _ => false

/-- `AvailabilityService.anonymous_matches_event`: same wrapper for anonymous
subscriptions. -/
def anonymous_matches_event (avails : List Availability) (er : EventRec) : Bool :=
  match checkEventMatchE avails er with
  | .ok b => b
  | .error _ => false

/-! ## Overlap decomposer — `organizations/analytics.py` -/

/-- The `subscriber_info` dict built at the top of `collect_subscriber_slots`. -/
structure SubscriberInfo where
  id : SubId
  name : String
  email : String
  stype : String
  availability_type : Conf
  deriving DecidableEq, Repr

/-- One element of the `subscriber_slots` list: a subscriber's slot placed on a
concrete date, times already parsed to minutes.  The source also stores
`day_name = days_of_week[date.weekday()]`, recovered here as `date.weekday`. -/
structure SubSlot where
  subscriber : SubscriberInfo
  date : Date
  startMin : Nat
  endMin : Nat
  recurrence_type : String
  deriving DecidableEq, Repr

/-- The recurrence test of `collect_subscriber_slots` (unlike the event
matcher, this one also expands `monthly` rules). -/
def appliesOn (a : Availability) (d : Date) : Bool :=
  if a.recurrence_type = "weekly" then a.day_of_week == some d.weekday
  else if a.recurrence_type = "monthly" then a.day_of_month == some d.day
  else if a.recurrence_type = "specific_date" then a.specific_date == some d
  else false

/-- The `applicable_dates` list of one availability record. -/
def applicableDates (a : Availability) (range : List Date) : List Date :=
  range.filter (appliesOn a)

/-- Builds the `subscriber_info` dict for an owned record. -/
def subscriberInfoOf (sub : Subscriber) (a : Availability) : SubscriberInfo :=
  { id := sub.id
    name := sub.name
    email := sub.email
    stype := match sub.id with | .user _ => "registered" | .anon _ => "anonymous"
    availability_type := a.availability_type }

/-- One slot append of `collect_subscriber_slots`: `strptime` both texts
(raising `ValueError` on malformed text — there is no `try` around these calls
in the source) and record the slot. -/
def mkSlot (info : SubscriberInfo) (rt : String) (d : Date) (ts : TimeSlotText) :
    Except String SubSlot :=
  match parseHHMM ts.startS, parseHHMM ts.endS with
  | some s, some e => .ok ⟨info, d, s, e, rt⟩
  | _, _ => .error "ValueError"

/-- Effectful map over a list, stopping at the first raised error (the Python
`for` loop's semantics). -/
def mapME {α β : Type} (g : α → Except String β) : List α → Except String (List β)
  | [] => .ok []
  | x :: t =>
    match g x with
    | .error e => .error e
    | .ok y =>
      match mapME g t with
      | .error e => .error e
      | .ok ys => .ok (y :: ys)

/-- The slots contributed by one availability record: skipped entirely when
neither owner variant is set, otherwise one slot per applicable date per time
slot, in that nesting order. -/
def slotsOfAvail (a : Availability) (range : List Date) : Except String (List SubSlot) :=
  match a.owner with
  | none => .ok []
  | some sub =>
    match
      mapME (fun d => mapME (mkSlot (subscriberInfoOf sub a) a.recurrence_type d) a.time_slots)
        (applicableDates a range)
    with
    | .error e => .error e
    | .ok ll => .ok ll.flatten

/-- `collect_subscriber_slots`: all subscriber slots over the date range, in
record order; the first unparsable slot text aborts the whole collection. -/
def collect_subscriber_slots : List Availability → List Date → Except String (List SubSlot)
  | [], _ => .ok []
  | a :: rest, range =>
    match slotsOfAvail a range with
    | .error e => .error e
    | .ok s1 =>
      match collect_subscriber_slots rest range with
      | .error e => .error e
      | .ok s2 => .ok (s1 ++ s2)

/-- Insert into a strictly sorted list, dropping duplicates (models adding an
element to a Python `set` that is later sorted). -/
def insertSortedDedup (x : Nat) : List Nat → List Nat
  | [] => [x]
  | y :: t =>
    if x < y then x :: y :: t
    else if x = y then y :: t
    else y :: insertSortedDedup x t

/-- `sorted(set(l))`: the strictly increasing enumeration of the values of a
list. -/
def sortedDedup (l : List Nat) : List Nat := l.foldr insertSortedDedup []

/-- Keep the first occurrence of every value (a dict's key order). -/
def dedupFirstAux {α : Type} [DecidableEq α] (seen : List α) : List α → List α
  | [] => []
  | x :: t => if x ∈ seen then dedupFirstAux seen t else x :: dedupFirstAux (x :: seen) t

/-- Keep the first occurrence of every value (a dict's key order). -/
def dedupFirst {α : Type} [DecidableEq α] (l : List α) : List α := dedupFirstAux [] l

/-- The key order of `time_boundaries_by_date`: dates in order of first
appearance among the collected slots. -/
def datesInOrder (slots : List SubSlot) : List Date :=
  dedupFirst (slots.map (fun s => s.date))

/-- `find_time_boundaries` at one date: the sorted, deduplicated start/end
minute values of the slots on that date. -/
def boundariesFor (slots : List SubSlot) (d : Date) : List Nat :=
  sortedDedup ((slots.filter (fun s => s.date == d)).flatMap (fun s => [s.startMin, s.endMin]))

/-- The `subscriber_detail` dict appended by `analyze_time_periods` and
`prepare_weekly_summary`: the subscriber info spread together with a time slot,
a date, a day name (kept as the weekday number) and a recurrence type. -/
structure SubscriberDetail where
  id : SubId
  name : String
  email : String
  stype : String
  availability_type : Conf
  tsStart : Nat
  tsEnd : Nat
  date : Date
  dayName : Nat
  recurrence_type : String
  deriving DecidableEq, Repr

/-- The subscriber scan of one atomic period in `analyze_time_periods`: walk
the slots, skip other dates, test `covers` (`slot_start <= period_start and
slot_end >= period_end`), deduplicate by subscriber identity and classify into
the `sure`/`maybe` lists. -/
def periodSubsAux (d : Date) (ps pe : Nat) :
    List SubSlot → List SubId → List SubscriberDetail → List SubscriberDetail →
    List SubscriberDetail × List SubscriberDetail
  | [], _, su, mb => (su, mb)
  | s :: rest, seen, su, mb =>
    if s.date = d ∧ s.startMin ≤ ps ∧ pe ≤ s.endMin then
      if s.subscriber.id ∈ seen then periodSubsAux d ps pe rest seen su mb
      else
        let det : SubscriberDetail :=
          { id := s.subscriber.id
            name := s.subscriber.name
            email := s.subscriber.email
            stype := s.subscriber.stype
            availability_type := s.subscriber.availability_type
            tsStart := ps
            tsEnd := pe
            date := d
            dayName := s.date.weekday
            recurrence_type := s.recurrence_type }
        match s.subscriber.availability_type with
        | .sure => periodSubsAux d ps pe rest (s.subscriber.id :: seen) (su ++ [det]) mb
        | .maybe => periodSubsAux d ps pe rest (s.subscriber.id :: seen) su (mb ++ [det])
    else periodSubsAux d ps pe rest seen su mb

/-- The `period_subscribers` value of one atomic period. -/
def periodSubscribers (slots : List SubSlot) (d : Date) (ps pe : Nat) :
    List SubscriberDetail × List SubscriberDetail :=
  periodSubsAux d ps pe slots [] [] []

/-- Consecutive pairs `(b[i], b[i+1])` of a boundary list. -/
def consecPairs : List Nat → List (Nat × Nat)
  | a :: b :: t => (a, b) :: consecPairs (b :: t)
  | _ => []

/-- One entry of `datetime_slot_details`: the key `(date, period)` together
with the `sure`/`maybe` subscriber-detail lists. -/
structure Entry where
  date : Date
  startMin : Nat
  endMin : Nat
  sure : List SubscriberDetail
  maybe : List SubscriberDetail
  deriving DecidableEq, Repr

/-- The periods of one date in `analyze_time_periods`: between every pair of
consecutive boundaries, keep the period iff some subscriber covers it. -/
def analyzeDate (slots : List SubSlot) (d : Date) : List Entry :=
  (consecPairs (boundariesFor slots d)).filterMap fun pq =>
    let sm := periodSubscribers slots d pq.1 pq.2
    if sm.1 = [] ∧ sm.2 = [] then none
    else some ⟨d, pq.1, pq.2, sm.1, sm.2⟩

/-- `analyze_time_periods`: the `datetime_slot_details` mapping, as the list of
its entries in insertion order (dates in first-appearance order, periods within
one date in increasing time order). -/
def analyze_time_periods (slots : List SubSlot) : List Entry :=
  (datesInOrder slots).flatMap (analyzeDate slots)

/-- One entry of `datetime_slot_scores` (the display-only `formatted_date` and
`display` strings are omitted; `day_name` is kept as the weekday number). -/
structure ScoreEntry where
  sure_count : Nat
  maybe_count : Nat
  total_count : Nat
  date : Date
  startMin : Nat
  endMin : Nat
  dayName : Nat
  deriving DecidableEq, Repr

/-- `calculate_slot_scores`: counts per stored detail entry, in insertion
order. -/
def calculate_slot_scores (details : List Entry) : List ScoreEntry :=
  details.filterMap fun e =>
    let sc := e.sure.length
    let mc := e.maybe.length
    if sc > 0 ∨ mc > 0 then
      some ⟨sc, mc, sc + mc, e.date, e.startMin, e.endMin, e.date.weekday⟩
    else none

/-- Stable insertion for a descending sort by `key`: the new element goes
before the first strictly smaller key, i.e. after every earlier element of
greater-or-equal key. -/
def insertRankDesc {α : Type} (key : α → Nat) (x : α) : List α → List α
  | [] => [x]
  | y :: t => if key y ≤ key x then x :: y :: t else y :: insertRankDesc key x t

/-- Python's stable `sorted(..., reverse=True)` under an integer key. -/
def sortRankDesc {α : Type} (key : α → Nat) (l : List α) : List α :=
  l.foldr (insertRankDesc key) []

/-- The ranking of `organizations/views.py availability_analytics`: the scored
slots sorted by `total_count` descending (stable, so ties keep map insertion
order) and truncated to the top 6. -/
def top_datetime_slots (scores : List ScoreEntry) : List ScoreEntry :=
  (sortRankDesc (fun s => s.total_count) scores).take 6

/-! ## Weekly summary — `prepare_weekly_summary` -/

/-- The weekly detail record appended for a slot (the slot's own hours, not a
period's). -/
def weeklyDetailOf (s : SubSlot) : SubscriberDetail :=
  { id := s.subscriber.id
    name := s.subscriber.name
    email := s.subscriber.email
    stype := s.subscriber.stype
    availability_type := s.subscriber.availability_type
    tsStart := s.startMin
    tsEnd := s.endMin
    date := s.date
    dayName := s.date.weekday
    recurrence_type := s.recurrence_type }

/-- The slot scan of `prepare_weekly_summary` restricted to one weekday
bucket: keep the first slot of every subscriber whose recurrence is `weekly`
and whose date falls on that weekday.  (The source fills all seven buckets in
one pass; the buckets and their seen-sets are independent, so the per-bucket
scan is the same computation.) -/
def weeklyBucketAux (w : Nat) :
    List SubSlot → List SubId → List SubscriberDetail → List SubscriberDetail
  | [], _, acc => acc
  | s :: rest, seen, acc =>
    if s.recurrence_type = "weekly" ∧ s.date.weekday = w ∧ s.subscriber.id ∉ seen then
      weeklyBucketAux w rest (s.subscriber.id :: seen) (acc ++ [weeklyDetailOf s])
    else weeklyBucketAux w rest seen acc

/-- The deduplicated subscriber-detail list of one weekday bucket. -/
def weeklyBucket (slots : List SubSlot) (w : Nat) : List SubscriberDetail :=
  weeklyBucketAux w slots [] []

/-- One value of the `weekly_summary` dict. -/
structure WeeklyBucket where
  subscriber_count : Nat
  sure_count : Nat
  maybe_count : Nat
  subscribers : List SubscriberDetail
  deriving DecidableEq, Repr

/-- The summary value computed from a bucket's subscriber list. -/
def mkWeeklyBucket (subs : List SubscriberDetail) : WeeklyBucket :=
  { subscriber_count := subs.length
    sure_count := (subs.filter (fun s => s.availability_type == Conf.sure)).length
    maybe_count := (subs.filter (fun s => s.availability_type == Conf.maybe)).length
    subscribers := subs }

/-- `prepare_weekly_summary`: the per-weekday summary, keyed 0..6 in
`days_of_week` order. -/
def prepare_weekly_summary (slots : List SubSlot) : List (Nat × WeeklyBucket) :=
  (List.range 7).map fun w => (w, mkWeeklyBucket (weeklyBucket slots w))

/-! ## Analytics entry point — `get_availability_analytics` -/

/-- The analytics payload (`date_range`, `start_date`, `end_date` echo fields
omitted). -/
structure Analytics where
  datetime_slot_details : List Entry
  datetime_slot_scores : List ScoreEntry
  weekly_summary : List (Nat × WeeklyBucket)
  total_subscribers : Nat
  deriving DecidableEq, Repr

/-- `get_availability_analytics`: early empty payloads when there are no
availability records (total 0) or no collected slots (total = record count),
otherwise the full pipeline with the number of distinct slot-contributing
subscribers; a `ValueError` raised during collection propagates. -/
def get_availability_analytics (avails : List Availability) (range : List Date) :
    Except String Analytics :=
  if avails.isEmpty then .ok ⟨[], [], [], 0⟩
  else
    match collect_subscriber_slots avails range with
    | .error e => .error e
    | .ok slots =>
      if slots.isEmpty then .ok ⟨[], [], [], avails.length⟩
      else
        let details := analyze_time_periods slots
        .ok ⟨details, calculate_slot_scores details, prepare_weekly_summary slots,
          (dedupFirst (slots.map (fun s => s.subscriber.id))).length⟩

/-! ## General helper lemmas about the embedded operations -/

theorem checkEventMatch_eq_any (avails : List Availability) (e : EventT) :
    checkEventMatch avails e =
      avails.any (fun a =>
        eventRuleApplies a e.startDT.date &&
          a.time_slots.any (slotMatches (eventStartMinutes e) (eventEndMinutes e))) := by
  cases avails <;> simp [checkEventMatch]

theorem slotMatches_true_iff (es ee : Nat) (ts : TimeSlotText) :
    slotMatches es ee ts = true ↔
      ∃ ss se : Nat, parseHHMM ts.startS = some ss ∧ parseHHMM ts.endS = some se ∧
        timesOverlap es ee ss se = true := by
  unfold slotMatches
  cases hs : parseHHMM ts.startS <;> cases he : parseHHMM ts.endS <;> simp

theorem checkEventMatch_true_iff (avails : List Availability) (e : EventT) :
    checkEventMatch avails e = true ↔
      ∃ a ∈ avails, eventRuleApplies a e.startDT.date = true ∧
        ∃ ts ∈ a.time_slots,
          slotMatches (eventStartMinutes e) (eventEndMinutes e) ts = true := by
  rw [checkEventMatch_eq_any, List.any_eq_true]
  simp [Bool.and_eq_true, List.any_eq_true]

theorem mapME_ok {α β : Type} (g : α → Except String β) (h : α → β) (l : List α)
    (hg : ∀ x ∈ l, g x = .ok (h x)) : mapME g l = .ok (l.map h) := by
  induction l with
  | nil => rfl
  | cons x t ih =>
    have hx := hg x (List.mem_cons_self x t)
    have ht := ih fun y hy => hg y (List.mem_cons_of_mem x hy)
    simp [mapME, hx, ht]

theorem mapME_error {α β : Type} (g : α → Except String β) (l : List α)
    (h : ∃ x ∈ l, ∃ m, g x = .error m) : ∃ m, mapME g l = .error m := by
  induction l with
  | nil => simp at h
  | cons x t ih =>
    rcases h with ⟨y, hy, m, hm⟩
    rcases List.mem_cons.mp hy with rfl | hyt
    · exact ⟨m, by simp [mapME, hm]⟩
    · cases hgx : g x with
      | error e => exact ⟨e, by simp [mapME, hgx]⟩
      | ok v =>
        rcases ih ⟨y, hyt, m, hm⟩ with ⟨m2, hm2⟩
        exact ⟨m2, by simp [mapME, hgx, hm2]⟩

theorem mkSlot_error (info : SubscriberInfo) (rt : String) (d : Date) (ts : TimeSlotText)
    (h : parseHHMM ts.startS = none ∨ parseHHMM ts.endS = none) :
    mkSlot info rt d ts = .error "ValueError" := by
  unfold mkSlot
  cases hs : parseHHMM ts.startS <;> cases he : parseHHMM ts.endS <;>
    simp_all

theorem slotsOfAvail_error (a : Availability) (range : List Date)
    (hown : a.owner ≠ none) (hdates : applicableDates a range ≠ [])
    (hbad : ∃ ts ∈ a.time_slots, parseHHMM ts.startS = none ∨ parseHHMM ts.endS = none) :
    ∃ m, slotsOfAvail a range = .error m := by
  cases hsub : a.owner with
  | none => exact absurd hsub hown
  | some sub =>
    rcases List.exists_mem_of_ne_nil _ hdates with ⟨d0, hd0⟩
    rcases hbad with ⟨ts, hts, hpar⟩
    have hinner : ∀ d : Date,
        ∃ m, mapME (mkSlot (subscriberInfoOf sub a) a.recurrence_type d) a.time_slots
          = .error m :=
      fun d => mapME_error _ _ ⟨ts, hts, "ValueError", mkSlot_error _ _ _ _ hpar⟩
    have houter :
        ∃ m, mapME (fun d =>
            mapME (mkSlot (subscriberInfoOf sub a) a.recurrence_type d) a.time_slots)
          (applicableDates a range) = .error m := by
      rcases hinner d0 with ⟨m0, hm0⟩
      exact mapME_error _ _ ⟨d0, hd0, m0, hm0⟩
    rcases houter with ⟨m, hm⟩
    exact ⟨m, by simp [slotsOfAvail, hsub, hm]⟩

theorem collect_error (avails : List Availability) (range : List Date)
    (h : ∃ a ∈ avails, ∃ m, slotsOfAvail a range = .error m) :
    ∃ m, collect_subscriber_slots avails range = .error m := by
  induction avails with
  | nil => simp at h
  | cons a rest ih =>
    rcases h with ⟨b, hb, m, hm⟩
    rcases List.mem_cons.mp hb with rfl | hbt
    · exact ⟨m, by simp [collect_subscriber_slots, hm]⟩
    · cases hga : slotsOfAvail a range with
      | error e => exact ⟨e, by simp [collect_subscriber_slots, hga]⟩
      | ok v =>
        rcases ih ⟨b, hbt, m, hm⟩ with ⟨m2, hm2⟩
        exact ⟨m2, by simp [collect_subscriber_slots, hga, hm2]⟩

/-! ## Shared concrete inputs -/

/-- A Monday (weekday 0 in Python's convention). -/
def exMonday : Date := ⟨100, 0, 5⟩

/-- The Monday one week later. -/
def exMonday2 : Date := ⟨107, 0, 12⟩

/-- A Tuesday. -/
def exTuesday : Date := ⟨101, 1, 6⟩

/-- A registered subscriber `A`. -/
def exSubA : Subscriber := ⟨.user 1, "alice", "alice@example.com"⟩

/-- A registered subscriber `B`. -/
def exSubB : Subscriber := ⟨.user 2, "bob", "bob@example.com"⟩

/-! ## C4 — monthly rules in the event matcher -/

/-- A monthly availability rule on day-of-month 5 with slot 10:00–11:00. -/
def c4rule : Availability :=
  ⟨some exSubA, "monthly", none, some 5, none, [⟨"10:00", "11:00"⟩], .sure⟩

/-- An event on a date whose day-of-month is 5, 10:00–10:30. -/
def c4event : EventT := ⟨⟨exMonday, 600⟩, some ⟨exMonday, 630⟩⟩

/-- C4 counterexample: a Monthly rule whose `day_of_month` equals the event's
day-of-month and whose slot overlaps the event's span, yet
`_check_event_match` returns false — the claim asserts it returns true. -/
theorem C4_counterexample :
    c4rule.day_of_month = some c4event.startDT.date.day ∧
    parseHHMM "10:00" = some 600 ∧ parseHHMM "11:00" = some 660 ∧
    timesOverlap (eventStartMinutes c4event) (eventEndMinutes c4event) 600 660 = true ∧
    checkEventMatch [c4rule] c4event = false := by
  decide

/-- C4 (amended): `_check_event_match` never expands monthly recurrence — any
availability record whose recurrence type is neither `weekly` nor
`specific_date` is skipped, so a subscriber all of whose rules are monthly
never matches any event. -/
theorem C4_monthly_never_matches (avails : List Availability) (e : EventT)
    (h : ∀ a ∈ avails, a.recurrence_type ≠ "weekly" ∧ a.recurrence_type ≠ "specific_date") :
    checkEventMatch avails e = false := by
  rw [checkEventMatch_eq_any]
  rw [List.any_eq_false]
  intro a ha
  rcases h a ha with ⟨h1, h2⟩
  simp [eventRuleApplies, h1, h2]

/-- Witness for C4 (amended) at the concrete monthly rule and event. -/
theorem C4_monthly_never_matches_witness : checkEventMatch [c4rule] c4event = false :=
  C4_monthly_never_matches [c4rule] c4event (by decide)

/-! ## C5 — strict half-open overlap -/

/-- Subscriber A's rule of Example 1: Weekly/Monday, slot 09:00–11:00, sure. -/
def c5rule : Availability :=
  ⟨some exSubA, "weekly", some 0, none, none, [⟨"09:00", "11:00"⟩], .sure⟩

/-- Event on a Monday at 09:30–10:00. -/
def c5event1 : EventT := ⟨⟨exMonday, 570⟩, some ⟨exMonday, 600⟩⟩

/-- Event on a Monday at 11:00–11:30 (touches the slot boundary). -/
def c5event2 : EventT := ⟨⟨exMonday, 660⟩, some ⟨exMonday, 690⟩⟩

/-- C5: the 09:30–10:00 event matches, the 11:00–11:30 event does not, and in
general two ranges that merely touch at an endpoint never satisfy
`_times_overlap` — overlap is strict and half-open. -/
theorem C5_strict_overlap :
    checkEventMatch [c5rule] c5event1 = true ∧
    checkEventMatch [c5rule] c5event2 = false ∧
    (∀ s1 e1 s2 e2 : Nat, e1 = s2 ∨ e2 = s1 → timesOverlap s1 e1 s2 e2 = false) := by
  refine ⟨by decide, by decide, ?_⟩
  intro s1 e1 s2 e2 h
  rcases h with h | h <;> subst h <;> simp [timesOverlap]

/-- Witness for C5 at the touching boundary 11:00. -/
theorem C5_strict_overlap_witness : timesOverlap 540 660 660 720 = false :=
  C5_strict_overlap.2.2 540 660 660 720 (Or.inl rfl)

/-! ## C6 — zero-duration events -/

/-- A zero-duration event at 10:00 on a Monday, strictly inside the
09:00–11:00 slot of `c5rule`'s shape. -/
def c6rule : Availability :=
  ⟨some exSubB, "weekly", some 0, none, none, [⟨"09:00", "11:00"⟩], .sure⟩

/-- The zero-duration event: start and end time-of-day both 10:00. -/
def c6event : EventT := ⟨⟨exMonday, 600⟩, some ⟨exMonday, 600⟩⟩

/-- C6 counterexample: a zero-duration event strictly inside a slot *does*
match (`start1 < end2 and start2 < end1` holds with `start1 = end1`), refuting
the claim that such events never match. -/
theorem C6_counterexample :
    eventEndMinutes c6event = eventStartMinutes c6event ∧
    checkEventMatch [c6rule] c6event = true := by
  decide

/-- C6 (amended): an event whose end time-of-day equals its start time-of-day
matches iff some applicable rule has a slot containing the event's time
strictly inside it; in particular it does not match slots it merely touches,
but it can match. -/
theorem C6_zero_duration_iff (avails : List Availability) (e : EventT)
    (h : eventEndMinutes e = eventStartMinutes e) :
    checkEventMatch avails e = true ↔
      ∃ a ∈ avails, eventRuleApplies a e.startDT.date = true ∧
        ∃ ts ∈ a.time_slots, ∃ ss se : Nat,
          parseHHMM ts.startS = some ss ∧ parseHHMM ts.endS = some se ∧
          ss < eventStartMinutes e ∧ eventStartMinutes e < se := by
  rw [checkEventMatch_true_iff]
  constructor
  · rintro ⟨a, ha, happ, ts, hts, hm⟩
    rcases (slotMatches_true_iff _ _ _).mp hm with ⟨ss, se, hps, hpe, hov⟩
    rw [h] at hov
    simp only [timesOverlap, Bool.and_eq_true, decide_eq_true_eq] at hov
    exact ⟨a, ha, happ, ts, hts, ss, se, hps, hpe, hov.2, hov.1⟩
  · rintro ⟨a, ha, happ, ts, hts, ss, se, hps, hpe, hlo, hhi⟩
    refine ⟨a, ha, happ, ts, hts, ?_⟩
    rw [slotMatches_true_iff]
    refine ⟨ss, se, hps, hpe, ?_⟩
    rw [h]
    simp only [timesOverlap, Bool.and_eq_true, decide_eq_true_eq]
    exact ⟨hhi, hlo⟩

/-- Witness for C6 (amended): the concrete zero-duration event at 10:00
matches through the 09:00–11:00 slot. -/
theorem C6_zero_duration_iff_witness : checkEventMatch [c6rule] c6event = true :=
  (C6_zero_duration_iff [c6rule] c6event rfl).mpr
    ⟨c6rule, by decide, by decide,
      ⟨"09:00", "11:00"⟩, by decide, 540, 660, by decide, by decide, by decide, by decide⟩

/-! ## C7 — unparsable time text -/

/-- A well-formed weekly Monday rule. -/
def c7good : Availability :=
  ⟨some exSubA, "weekly", some 0, none, none, [⟨"09:00", "10:00"⟩], .sure⟩

/-- A weekly Monday rule whose slot start text is not `HH:MM`. -/
def c7bad : Availability :=
  ⟨some exSubB, "weekly", some 0, none, none, [⟨"xx:yy", "10:00"⟩], .sure⟩

/-- C7 counterexample: one rule with unparsable time text makes the whole
analytics run raise `ValueError` — the good rule's analytics are *not*
produced, refuting the skip-with-warning claim. -/
theorem C7_counterexample :
    get_availability_analytics [c7good, c7bad] [exMonday] = .error "ValueError" := by
  rfl

/-- C7 (amended): an availability record with unparsable slot text that
applies to at least one date of the range aborts the whole analytics run with
a raised error; it is not skipped. -/
theorem C7_unparsable_aborts (avails : List Availability) (range : List Date)
    (h : ∃ a ∈ avails, a.owner ≠ none ∧ applicableDates a range ≠ [] ∧
      ∃ ts ∈ a.time_slots, parseHHMM ts.startS = none ∨ parseHHMM ts.endS = none) :
    ∃ m, get_availability_analytics avails range = .error m := by
  have hne : avails ≠ [] := by
    rcases h with ⟨a, ha, _⟩
    exact List.ne_nil_of_mem ha
  have hcol : ∃ m, collect_subscriber_slots avails range = .error m := by
    rcases h with ⟨a, ha, hown, hdates, hbad⟩
    exact collect_error avails range ⟨a, ha, slotsOfAvail_error a range hown hdates hbad⟩
  rcases hcol with ⟨m, hm⟩
  refine ⟨m, ?_⟩
  unfold get_availability_analytics
  rw [if_neg (by simp [List.isEmpty_iff, hne]), hm]

/-- Witness for C7 (amended) at the concrete two-rule input. -/
theorem C7_unparsable_aborts_witness :
    ∃ m, get_availability_analytics [c7good, c7bad] [exMonday] = .error m :=
  C7_unparsable_aborts [c7good, c7bad] [exMonday]
    ⟨c7bad, by decide, by decide, by decide, ⟨"xx:yy", "10:00"⟩, by decide, by decide⟩

/-! ## C9 — analytics with no rules -/

/-- C9: with no availability records, `get_availability_analytics` is not an
error — it returns the analytics payload with every collection empty and a
total subscriber count of 0, for every date range. -/
theorem C9_empty_analytics (range : List Date) :
    get_availability_analytics [] range = .ok ⟨[], [], [], 0⟩ := rfl

/-! ## C10 — exception-free public match predicates -/

/-- C10: the public wrappers catch any exception raised inside
`_check_event_match` and return false; a raised error never propagates. -/
theorem C10_wrappers_never_raise (avails : List Availability) (er : EventRec) (msg : String)
    (h : checkEventMatchE avails er = .error msg) :
    user_matches_event avails er = false ∧ anonymous_matches_event avails er = false := by
  constructor <;> simp [user_matches_event, anonymous_matches_event, h]

/-- An event record whose `start_datetime` attribute is missing. -/
def c10event : EventRec := ⟨none, none⟩

/-- Witness for C10 at a malformed event record. -/
theorem C10_wrappers_never_raise_witness :
    user_matches_event [] c10event = false ∧ anonymous_matches_event [] c10event = false :=
  C10_wrappers_never_raise [] c10event "AttributeError" rfl

/-! ## C3 — ranking of scored slots -/

/-- The later of the two specific dates of the C3 input. -/
def c3dLate : Date := ⟨20, 5, 21⟩

/-- The earlier of the two specific dates of the C3 input. -/
def c3dEarly : Date := ⟨10, 2, 11⟩

/-- Rule on the later specific date, first in record order. -/
def c3availLate : Availability :=
  ⟨some exSubA, "specific_date", none, none, some c3dLate, [⟨"09:00", "10:00"⟩], .sure⟩

/-- Rule on the earlier specific date, second in record order. -/
def c3availEarly : Availability :=
  ⟨some exSubB, "specific_date", none, none, some c3dEarly, [⟨"09:00", "10:00"⟩], .sure⟩

/-- The slots collected from the two C3 rules over `[c3dEarly, c3dLate]`. -/
def c3slots : List SubSlot :=
  [⟨⟨.user 1, "alice", "alice@example.com", "registered", .sure⟩, c3dLate, 540, 600,
      "specific_date"⟩,
   ⟨⟨.user 2, "bob", "bob@example.com", "registered", .sure⟩, c3dEarly, 540, 600,
      "specific_date"⟩]

/-- The score entry of the later date. -/
def c3scoreLate : ScoreEntry := ⟨1, 0, 1, c3dLate, 540, 600, 5⟩

/-- The score entry of the earlier date. -/
def c3scoreEarly : ScoreEntry := ⟨1, 0, 1, c3dEarly, 540, 600, 2⟩

/-- C3 counterexample: two scored slots with identical counts, where the
*later* date was inserted into the details map first; the stable ranking keeps
the later date ahead of the earlier one, refuting the claim that count ties
are broken by earliest date. -/
theorem C3_counterexample :
    collect_subscriber_slots [c3availLate, c3availEarly] [c3dEarly, c3dLate] = .ok c3slots ∧
    top_datetime_slots (calculate_slot_scores (analyze_time_periods c3slots))
      = [c3scoreLate, c3scoreEarly] ∧
    c3scoreLate.sure_count = c3scoreEarly.sure_count ∧
    c3scoreLate.maybe_count = c3scoreEarly.maybe_count ∧
    c3scoreEarly.date.ord < c3scoreLate.date.ord :=
  ⟨rfl, by decide, by decide, by decide, by decide⟩

theorem mem_insertRankDesc {α : Type} (key : α → Nat) (x y : α) (l : List α) :
    y ∈ insertRankDesc key x l ↔ y = x ∨ y ∈ l := by
  induction l with
  | nil => simp [insertRankDesc]
  | cons z t ih =>
    by_cases h : key z ≤ key x
    · simp [insertRankDesc, h]
    · simp only [insertRankDesc, if_neg h, List.mem_cons, ih]
      tauto

theorem sorted_insertRankDesc {α : Type} (key : α → Nat) (x : α) (l : List α)
    (h : l.Sorted (fun a b => key b ≤ key a)) :
    (insertRankDesc key x l).Sorted (fun a b => key b ≤ key a) := by
  induction l with
  | nil => simp [insertRankDesc]
  | cons z t ih =>
    rw [List.sorted_cons] at h
    by_cases hk : key z ≤ key x
    · simp only [insertRankDesc, if_pos hk]
      rw [List.sorted_cons]
      constructor
      · intro b hb
        rcases List.mem_cons.mp hb with rfl | hbt
        · exact hk
        · exact le_trans (h.1 b hbt) hk
      · rw [List.sorted_cons]
        exact h
    · simp only [insertRankDesc, if_neg hk]
      rw [List.sorted_cons]
      refine ⟨?_, ih h.2⟩
      intro b hb
      rcases (mem_insertRankDesc key x b t).mp hb with rfl | hbt
      · omega
      · exact h.1 b hbt

theorem sorted_sortRankDesc {α : Type} (key : α → Nat) (l : List α) :
    (sortRankDesc key l).Sorted (fun a b => key b ≤ key a) := by
  induction l with
  | nil => simp [sortRankDesc]
  | cons x t ih => exact sorted_insertRankDesc key x _ ih

/-- C3 (amended): the ranked list is ordered by `total_count` descending
(`total_count = sure_count + maybe_count`, monotone in each count); the sort
is stable, so ties keep the details-map insertion order — dates in order of
first appearance among the collected slots, not necessarily earliest first —
and the ranking is a deterministic function of its input. -/
theorem C3_ranked_by_total_desc :
    (∀ scores : List ScoreEntry,
      (top_datetime_slots scores).Sorted (fun a b => b.total_count ≤ a.total_count)) ∧
    (∀ details : List Entry,
      (calculate_slot_scores details).all
        (fun s => s.total_count == s.sure_count + s.maybe_count) = true) := by
  constructor
  · intro scores
    have h := sorted_sortRankDesc (fun s : ScoreEntry => s.total_count) scores
    exact List.Pairwise.sublist (List.take_sublist 6 _) h
  · intro details
    rw [List.all_eq_true]
    intro s hs
    rcases List.mem_filterMap.mp hs with ⟨e, _, hfe⟩
    by_cases hc : e.sure.length > 0 ∨ e.maybe.length > 0
    · rw [if_pos hc] at hfe
      cases hfe
      simp
    · rw [if_neg hc] at hfe
      cases hfe

/-! ## Helper lemmas for the decomposer proofs -/

theorem filterMapComm {α β : Type} (f : α → β) (p : β → Bool) (l : List α) :
    (l.map f).filter p = (l.filter (fun x => p (f x))).map f := by
  induction l with
  | nil => rfl
  | cons x t ih =>
    by_cases h : p (f x) = true
    · simp [List.filter_cons, h, ih]
    · simp [List.filter_cons, h, ih]

theorem nodup_filter_beq_singleton {α : Type} [DecidableEq α] (l : List α) (d : α)
    (hnd : l.Nodup) (hd : d ∈ l) : l.filter (fun x => x == d) = [d] := by
  induction l with
  | nil => cases hd
  | cons x t ih =>
    rw [List.nodup_cons] at hnd
    by_cases hx : x = d
    · subst hx
      rw [List.filter_cons_of_pos (by simp)]
      have ht : t.filter (fun y => y == x) = [] := by
        rw [List.filter_eq_nil_iff]
        intro y hy
        simp only [beq_iff_eq]
        intro hyx
        exact hnd.1 (hyx ▸ hy)
      rw [ht]
    · rw [List.filter_cons_of_neg (by simp [hx])]
      refine ih hnd.2 ?_
      rcases List.mem_cons.mp hd with rfl | h
      · exact absurd rfl hx
      · exact h

theorem mem_dedupFirstAux {α : Type} [DecidableEq α] (l : List α) :
    ∀ (seen : List α) (x : α), x ∈ dedupFirstAux seen l ↔ x ∈ l ∧ x ∉ seen := by
  induction l with
  | nil => intro seen x; simp [dedupFirstAux]
  | cons y t ih =>
    intro seen x
    by_cases hy : y ∈ seen
    · simp only [dedupFirstAux, if_pos hy, ih, List.mem_cons]
      constructor
      · rintro ⟨hx, hs⟩
        exact ⟨Or.inr hx, hs⟩
      · rintro ⟨rfl | hx, hs⟩
        · exact absurd hy hs
        · exact ⟨hx, hs⟩
    · simp only [dedupFirstAux, if_neg hy, List.mem_cons, ih]
      constructor
      · rintro (rfl | ⟨hx, hs⟩)
        · exact ⟨Or.inl rfl, hy⟩
        · exact ⟨Or.inr hx, fun h => hs (Or.inr h)⟩
      · rintro ⟨rfl | hx, hs⟩
        · exact Or.inl rfl
        · by_cases hxy : x = y
          · exact Or.inl hxy
          · exact Or.inr ⟨hx, fun h => h.elim hxy hs⟩

theorem nodup_dedupFirstAux {α : Type} [DecidableEq α] (l : List α) :
    ∀ seen : List α, (dedupFirstAux seen l).Nodup := by
  induction l with
  | nil => intro seen; simp [dedupFirstAux]
  | cons y t ih =>
    intro seen
    by_cases hy : y ∈ seen
    · simp only [dedupFirstAux, if_pos hy]
      exact ih seen
    · simp only [dedupFirstAux, if_neg hy]
      rw [List.nodup_cons]
      refine ⟨?_, ih _⟩
      intro hmem
      exact ((mem_dedupFirstAux t _ y).mp hmem).2 (List.mem_cons_self y _)

theorem mem_dedupFirst {α : Type} [DecidableEq α] (l : List α) (x : α) :
    x ∈ dedupFirst l ↔ x ∈ l := by
  rw [dedupFirst, mem_dedupFirstAux]
  simp

theorem nodup_dedupFirst {α : Type} [DecidableEq α] (l : List α) : (dedupFirst l).Nodup :=
  nodup_dedupFirstAux l []

theorem filter_flatMap {α β : Type} (l : List α) (g : α → List β) (p : β → Bool) :
    (l.flatMap g).filter p = l.flatMap (fun x => (g x).filter p) := by
  induction l with
  | nil => rfl
  | cons x t ih => simp [List.flatMap_cons, List.filter_append, ih]

theorem flatMap_if_eq_of_nodup {α β : Type} [DecidableEq α] (l : List α) (d : α) (A : List β)
    (hnd : l.Nodup) (hd : d ∈ l) :
    (l.flatMap (fun x => if x = d then A else [])) = A := by
  induction l with
  | nil => cases hd
  | cons x t ih =>
    rw [List.nodup_cons] at hnd
    rcases List.mem_cons.mp hd with heq | hdt
    · subst heq
      rw [List.flatMap_cons, if_pos rfl]
      have ht : t.flatMap (fun y => if y = d then A else []) = [] := by
        rw [List.flatMap_eq_nil_iff]
        intro y hy
        rw [if_neg (fun h : y = d => hnd.1 (h ▸ hy))]
      rw [ht, List.append_nil]
    · rw [List.flatMap_cons, if_neg (by rintro rfl; exact hnd.1 hdt), List.nil_append]
      exact ih hnd.2 hdt

theorem flatten_map_singleton {α β : Type} (l : List α) (f : α → β) :
    (l.map (fun x => [f x])).flatten = l.map f := by
  induction l <;> simp_all

theorem periodSubsAux_filter (d : Date) (ps pe : Nat) (slots : List SubSlot) :
    ∀ seen su mb, periodSubsAux d ps pe slots seen su mb
      = periodSubsAux d ps pe (slots.filter (fun s => s.date == d)) seen su mb := by
  induction slots with
  | nil => intro seen su mb; rfl
  | cons s t ih =>
    intro seen su mb
    by_cases hd : s.date = d
    · rw [List.filter_cons_of_pos (by simp [hd])]
      by_cases hc : s.date = d ∧ s.startMin ≤ ps ∧ pe ≤ s.endMin
      · simp only [periodSubsAux, if_pos hc]
        by_cases hseen : s.subscriber.id ∈ seen
        · simp only [if_pos hseen]
          exact ih seen su mb
        · simp only [if_neg hseen]
          cases s.subscriber.availability_type <;> exact ih _ _ _
      · simp only [periodSubsAux, if_neg hc]
        exact ih seen su mb
    · rw [List.filter_cons_of_neg (by simp [hd])]
      have hc : ¬ (s.date = d ∧ s.startMin ≤ ps ∧ pe ≤ s.endMin) := fun h => hd h.1
      simp only [periodSubsAux, if_neg hc]
      exact ih seen su mb

theorem flatMapCongr {α β : Type} (l : List α) (f g : α → List β)
    (h : ∀ x ∈ l, f x = g x) : l.flatMap f = l.flatMap g := by
  induction l with
  | nil => rfl
  | cons x t ih =>
    rw [List.flatMap_cons, List.flatMap_cons, h x (List.mem_cons_self x t),
      ih fun y hy => h y (List.mem_cons_of_mem x hy)]

theorem analyzeDate_mem_date (slots : List SubSlot) (d : Date) (en : Entry)
    (h : en ∈ analyzeDate slots d) : en.date = d := by
  rcases List.mem_filterMap.mp h with ⟨pq, _, hsome⟩
  by_cases hc : (periodSubscribers slots d pq.1 pq.2).1 = []
      ∧ (periodSubscribers slots d pq.1 pq.2).2 = []
  · rw [if_pos hc] at hsome
    cases hsome
  · rw [if_neg hc] at hsome
    cases hsome
    rfl

theorem analyze_filter_date (slots : List SubSlot) (d : Date)
    (hmem : d ∈ datesInOrder slots) :
    (analyze_time_periods slots).filter (fun en => en.date == d) = analyzeDate slots d := by
  rw [analyze_time_periods, filter_flatMap]
  have hpt : ∀ d' ∈ datesInOrder slots,
      (analyzeDate slots d').filter (fun en => en.date == d)
        = if d' = d then analyzeDate slots d else [] := by
    intro d' _
    by_cases hdd : d' = d
    · subst hdd
      rw [if_pos rfl]
      apply List.filter_eq_self.mpr
      intro en hen
      simp [analyzeDate_mem_date slots d' en hen]
    · rw [if_neg hdd]
      rw [List.filter_eq_nil_iff]
      intro en hen
      simp [analyzeDate_mem_date slots d' en hen, hdd]
  rw [flatMapCongr _ _ (fun x => if x = d then analyzeDate slots d else []) hpt]
  exact flatMap_if_eq_of_nodup _ d _ (nodup_dedupFirst _) hmem

/-! ## C1 — Example 2 decomposition -/

/-- Subscriber A's rule of Example 2: Weekly/Monday 09:00–12:00, sure. -/
def c1availA : Availability :=
  ⟨some exSubA, "weekly", some 0, none, none, [⟨"09:00", "12:00"⟩], .sure⟩

/-- Subscriber B's rule of Example 2: Weekly/Monday 10:00–14:00, maybe. -/
def c1availB : Availability :=
  ⟨some exSubB, "weekly", some 0, none, none, [⟨"10:00", "14:00"⟩], .maybe⟩

/-- Subscriber A's collected info. -/
def c1infoA : SubscriberInfo := ⟨.user 1, "alice", "alice@example.com", "registered", .sure⟩

/-- Subscriber B's collected info. -/
def c1infoB : SubscriberInfo := ⟨.user 2, "bob", "bob@example.com", "registered", .maybe⟩

/-- Subscriber A's slot placed on a date. -/
def c1slotA (d : Date) : SubSlot := ⟨c1infoA, d, 540, 720, "weekly"⟩

/-- Subscriber B's slot placed on a date. -/
def c1slotB (d : Date) : SubSlot := ⟨c1infoB, d, 600, 840, "weekly"⟩

/-- Subscriber A's detail record for a period of the Monday `d`. -/
def c1detailA (d : Date) (ps pe : Nat) : SubscriberDetail :=
  ⟨.user 1, "alice", "alice@example.com", "registered", .sure, ps, pe, d, d.weekday, "weekly"⟩

/-- Subscriber B's detail record for a period of the Monday `d`. -/
def c1detailB (d : Date) (ps pe : Nat) : SubscriberDetail :=
  ⟨.user 2, "bob", "bob@example.com", "registered", .maybe, ps, pe, d, d.weekday, "weekly"⟩

/-- The three atomic intervals Example 2 requires for the Monday `d`. -/
def c1entries (d : Date) : List Entry :=
  [⟨d, 540, 600, [c1detailA d 540 600], []⟩,
   ⟨d, 600, 720, [c1detailA d 600 720], [c1detailB d 600 720]⟩,
   ⟨d, 720, 840, [], [c1detailB d 720 840]⟩]

theorem slotsOfAvail_ok_of (a : Availability) (range : List Date) (sub : Subscriber)
    (hown : a.owner = some sub) (f : Date → SubSlot)
    (hinner : ∀ dd ∈ applicableDates a range,
      mapME (mkSlot (subscriberInfoOf sub a) a.recurrence_type dd) a.time_slots
        = .ok [f dd]) :
    slotsOfAvail a range = .ok ((applicableDates a range).map f) := by
  have houter := mapME_ok _ (fun dd => [f dd]) (applicableDates a range) hinner
  simp only [slotsOfAvail, hown, houter, flatten_map_singleton]

/-- C1: for the two rules of Example 2 and *any* duplicate-free date range
containing a Monday `d`, the decomposition's entries for `d` are exactly the
three atomic intervals 09:00–10:00 (sure: A), 10:00–12:00 (sure: A,
maybe: B) and 12:00–14:00 (maybe: B). -/
theorem C1_example2_decomposition (d : Date) (range : List Date)
    (hw : d.weekday = 0) (hmem : d ∈ range) (hnd : range.Nodup) :
    ∃ slots, collect_subscriber_slots [c1availA, c1availB] range = .ok slots ∧
      (analyze_time_periods slots).filter (fun en => en.date == d) = c1entries d := by
  have hp9 : parseHHMM "09:00" = some 540 := by decide
  have hp12 : parseHHMM "12:00" = some 720 := by decide
  have hp10 : parseHHMM "10:00" = some 600 := by decide
  have hp14 : parseHHMM "14:00" = some 840 := by decide
  -- the slots contributed by each rule
  have hA : slotsOfAvail c1availA range
      = .ok ((range.filter (appliesOn c1availA)).map c1slotA) := by
    refine slotsOfAvail_ok_of c1availA range exSubA rfl c1slotA ?_
    intro dd _
    simp [c1availA, mapME, mkSlot, hp9, hp12, subscriberInfoOf, exSubA, c1slotA, c1infoA]
  have hB : slotsOfAvail c1availB range
      = .ok ((range.filter (appliesOn c1availB)).map c1slotB) := by
    refine slotsOfAvail_ok_of c1availB range exSubB rfl c1slotB ?_
    intro dd _
    simp [c1availB, mapME, mkSlot, hp10, hp14, subscriberInfoOf, exSubB, c1slotB, c1infoB]
  have hBA : range.filter (appliesOn c1availB) = range.filter (appliesOn c1availA) :=
    List.filter_congr fun x _ => rfl
  set M := range.filter (appliesOn c1availA) with hM
  refine ⟨M.map c1slotA ++ M.map c1slotB, ?_, ?_⟩
  · simp [collect_subscriber_slots, hA, hB, hBA]
  set slots := M.map c1slotA ++ M.map c1slotB with hslots
  -- the Monday appears exactly once among the applicable dates
  have hpd : appliesOn c1availA d = true := by
    simp [appliesOn, c1availA, hw]
  have hdM : d ∈ M := List.mem_filter.mpr ⟨hmem, hpd⟩
  have hMd : M.filter (fun x => x == d) = [d] :=
    nodup_filter_beq_singleton M d (hnd.filter _) hdM
  -- the slots on the Monday
  have hfilter : slots.filter (fun s => s.date == d) = [c1slotA d, c1slotB d] := by
    rw [hslots, List.filter_append, filterMapComm, filterMapComm]
    have ha : M.filter (fun x => (c1slotA x).date == d) = [d] := by
      rw [List.filter_congr fun x _ => rfl]
      exact hMd
    have hb : M.filter (fun x => (c1slotB x).date == d) = [d] := by
      rw [List.filter_congr fun x _ => rfl]
      exact hMd
    rw [ha, hb]
    rfl
  have hbound : boundariesFor slots d = [540, 600, 720, 840] := by
    rw [boundariesFor, hfilter]
    rfl
  -- the three periods
  have hps : ∀ ps pe : Nat, periodSubscribers slots d ps pe
      = periodSubsAux d ps pe [c1slotA d, c1slotB d] [] [] [] := by
    intro ps pe
    rw [periodSubscribers, periodSubsAux_filter, hfilter]
  have h1 : periodSubscribers slots d 540 600 = ([c1detailA d 540 600], []) := by
    rw [hps]
    simp [periodSubsAux, c1slotA, c1slotB, c1infoA, c1infoB, c1detailA]
  have h2 : periodSubscribers slots d 600 720
      = ([c1detailA d 600 720], [c1detailB d 600 720]) := by
    rw [hps]
    simp [periodSubsAux, c1slotA, c1slotB, c1infoA, c1infoB, c1detailA, c1detailB]
  have h3 : periodSubscribers slots d 720 840 = ([], [c1detailB d 720 840]) := by
    rw [hps]
    simp [periodSubsAux, c1slotA, c1slotB, c1infoA, c1infoB, c1detailB]
  have hAD : analyzeDate slots d = c1entries d := by
    unfold analyzeDate
    rw [hbound]
    simp [consecPairs, h1, h2, h3, c1entries]
  have hdates : d ∈ datesInOrder slots := by
    rw [datesInOrder, mem_dedupFirst]
    exact List.mem_map.mpr ⟨c1slotA d, by
      rw [hslots]
      exact List.mem_append_left _ (List.mem_map.mpr ⟨d, hdM, rfl⟩), rfl⟩
  rw [analyze_filter_date slots d hdates, hAD]

/-- Witness for C1 at the concrete Monday and the singleton range. -/
theorem C1_example2_decomposition_witness :
    ∃ slots, collect_subscriber_slots [c1availA, c1availB] [exMonday] = .ok slots ∧
      (analyze_time_periods slots).filter (fun en => en.date == exMonday)
        = c1entries exMonday :=
  C1_example2_decomposition exMonday [exMonday] rfl (by decide) (by decide)

/-! ## C8 — dependence of the weekly summary on the date range -/

/-- The identity/confidence projection of a collected slot. -/
def pairOf (s : SubSlot) : SubId × Conf := (s.subscriber.id, s.subscriber.availability_type)

/-- The identity/confidence projection of a detail record. -/
def detPairOf (det : SubscriberDetail) : SubId × Conf := (det.id, det.availability_type)

/-- Keep the first pair of every subscriber identity (the per-bucket seen-set
of `prepare_weekly_summary`). -/
def dedupPairsAux (seen : List SubId) : List (SubId × Conf) → List (SubId × Conf)
  | [] => []
  | p :: t => if p.1 ∈ seen then dedupPairsAux seen t else p :: dedupPairsAux (p.1 :: seen) t

/-- The value of a slot built by `collect_subscriber_slots` once its texts are
known to parse. -/
def pureSlot (sub : Subscriber) (a : Availability) (d : Date) (ts : TimeSlotText) : SubSlot :=
  ⟨subscriberInfoOf sub a, d, (parseHHMM ts.startS).getD 0, (parseHHMM ts.endS).getD 0,
    a.recurrence_type⟩

/-- The slots one availability record contributes when every slot text
parses. -/
def slotsOfAvailPure (a : Availability) (range : List Date) : List SubSlot :=
  match a.owner with
  | none => []
  | some sub => (applicableDates a range).flatMap fun d => a.time_slots.map (pureSlot sub a d)

/-- The identity/confidence pairs one availability record feeds into weekday
bucket `w`, one per applicable date per time slot. -/
def weeklyPairChunk (a : Availability) (range : List Date) (w : Nat) : List (SubId × Conf) :=
  match a.owner with
  | none => []
  | some sub =>
    if a.recurrence_type = "weekly" ∧ a.day_of_week = some w then
      List.replicate ((applicableDates a range).length * a.time_slots.length)
        (sub.id, a.availability_type)
    else []

/-- The length of `weeklyPairChunk`. -/
def chunkLen (a : Availability) (range : List Date) (w : Nat) : Nat :=
  match a.owner with
  | none => 0
  | some _ =>
    if a.recurrence_type = "weekly" ∧ a.day_of_week = some w then
      (applicableDates a range).length * a.time_slots.length
    else 0

/-- The repeated pair of `weeklyPairChunk`. -/
def chunkPair (a : Availability) : SubId × Conf :=
  ((a.owner.map Subscriber.id).getD (SubId.user 0), a.availability_type)

theorem weeklyPairChunk_eq_replicate (a : Availability) (range : List Date) (w : Nat) :
    weeklyPairChunk a range w = List.replicate (chunkLen a range w) (chunkPair a) := by
  cases hown : a.owner with
  | none => simp [weeklyPairChunk, chunkLen, hown]
  | some sub =>
    by_cases hc : a.recurrence_type = "weekly" ∧ a.day_of_week = some w
    · simp [weeklyPairChunk, chunkLen, chunkPair, hown, if_pos hc]
    · simp [weeklyPairChunk, chunkLen, hown, if_neg hc]

theorem mapFlatMap {α β γ : Type} (l : List α) (g : α → List β) (f : β → γ) :
    (l.flatMap g).map f = l.flatMap (fun x => (g x).map f) := by
  induction l <;> simp_all

theorem map_const_replicate {α β : Type} (l : List α) (b : β) :
    l.map (fun _ => b) = List.replicate l.length b := by
  induction l <;> simp_all [List.replicate_succ]

theorem flatMap_replicate_const {α β : Type} (l : List α) (k : Nat) (p : β) :
    l.flatMap (fun _ => List.replicate k p) = List.replicate (l.length * k) p := by
  induction l with
  | nil => simp
  | cons x t ih =>
    rw [List.flatMap_cons, ih, ← List.replicate_add, List.length_cons]
    congr 1
    ring

theorem mapME_ok_forall {α β : Type} (g : α → Except String β) (l : List α) :
    ∀ out : List β, mapME g l = .ok out → ∀ x ∈ l, ∃ y, g x = .ok y := by
  induction l with
  | nil => intro out _ x hx; cases hx
  | cons z t ih =>
    intro out h x hx
    cases hz : g z with
    | error e => simp [mapME, hz] at h
    | ok y =>
      simp only [mapME, hz] at h
      cases ht : mapME g t with
      | error e => rw [ht] at h; cases h
      | ok ys =>
        rw [ht] at h
        rcases List.mem_cons.mp hx with rfl | hxt
        · exact ⟨y, hz⟩
        · exact ih ys ht x hxt

theorem mkSlot_ok_eq (info : SubscriberInfo) (rt : String) (d : Date) (ts : TimeSlotText)
    (y : SubSlot) (h : mkSlot info rt d ts = .ok y) :
    y = ⟨info, d, (parseHHMM ts.startS).getD 0, (parseHHMM ts.endS).getD 0, rt⟩ := by
  unfold mkSlot at h
  cases hs : parseHHMM ts.startS <;> cases he : parseHHMM ts.endS <;> rw [hs, he] at h
  · cases h
  · cases h
  · cases h
  · cases h
    simp

theorem slotsOfAvail_ok_eq (a : Availability) (range : List Date) (s1 : List SubSlot)
    (h : slotsOfAvail a range = .ok s1) : s1 = slotsOfAvailPure a range := by
  cases hown : a.owner with
  | none =>
    simp only [slotsOfAvail, hown] at h
    cases h
    simp [slotsOfAvailPure, hown]
  | some sub =>
    simp only [slotsOfAvail, hown] at h
    cases hout : mapME (fun d =>
        mapME (mkSlot (subscriberInfoOf sub a) a.recurrence_type d) a.time_slots)
        (applicableDates a range) with
    | error e => rw [hout] at h; cases h
    | ok ll =>
      rw [hout] at h
      cases h
      have hinner : ∀ d ∈ applicableDates a range,
          mapME (mkSlot (subscriberInfoOf sub a) a.recurrence_type d) a.time_slots
            = .ok (a.time_slots.map (pureSlot sub a d)) := by
        intro d hd
        rcases mapME_ok_forall _ _ _ hout d hd with ⟨ys, hys⟩
        refine mapME_ok _ (pureSlot sub a d) _ ?_
        intro ts hts
        rcases mapME_ok_forall _ _ _ hys ts hts with ⟨y, hy⟩
        rw [hy, mkSlot_ok_eq _ _ _ _ _ hy]
        rfl
      have hcanon := mapME_ok _ (fun d => a.time_slots.map (pureSlot sub a d)) _ hinner
      rw [hcanon] at hout
      cases hout
      simp [slotsOfAvailPure, hown, List.flatMap_def]

theorem collect_ok_eq (avails : List Availability) (range : List Date) :
    ∀ slots : List SubSlot, collect_subscriber_slots avails range = .ok slots →
      slots = avails.flatMap (fun a => slotsOfAvailPure a range) := by
  induction avails with
  | nil =>
    intro slots h
    cases h
    rfl
  | cons a rest ih =>
    intro slots h
    cases ha : slotsOfAvail a range with
    | error e => simp [collect_subscriber_slots, ha] at h
    | ok s1 =>
      simp only [collect_subscriber_slots, ha] at h
      cases hrest : collect_subscriber_slots rest range with
      | error e => rw [hrest] at h; cases h
      | ok s2 =>
        rw [hrest] at h
        cases h
        rw [List.flatMap_cons, slotsOfAvail_ok_eq a range s1 ha, ih s2 hrest]

/-- The bucket filter of weekday `w`. -/
def isWeeklySlotOn (w : Nat) (s : SubSlot) : Bool :=
  s.recurrence_type == "weekly" && s.date.weekday == w

theorem weeklyBucketAux_pairs (w : Nat) (slots : List SubSlot) :
    ∀ seen acc, (weeklyBucketAux w slots seen acc).map detPairOf
      = acc.map detPairOf
        ++ dedupPairsAux seen ((slots.filter (isWeeklySlotOn w)).map pairOf) := by
  induction slots with
  | nil =>
    intro seen acc
    simp [weeklyBucketAux, dedupPairsAux]
  | cons s t ih =>
    intro seen acc
    by_cases hf : s.recurrence_type = "weekly" ∧ s.date.weekday = w
    · rw [List.filter_cons_of_pos (by simp [isWeeklySlotOn, hf.1, hf.2])]
      by_cases hseen : s.subscriber.id ∈ seen
      · have hcond : ¬ (s.recurrence_type = "weekly" ∧ s.date.weekday = w
            ∧ s.subscriber.id ∉ seen) := fun h => h.2.2 hseen
        simp only [weeklyBucketAux, if_neg hcond]
        rw [ih seen acc, List.map_cons]
        simp only [dedupPairsAux, pairOf, if_pos hseen]
      · have hcond : s.recurrence_type = "weekly" ∧ s.date.weekday = w
            ∧ s.subscriber.id ∉ seen := ⟨hf.1, hf.2, hseen⟩
        simp only [weeklyBucketAux, if_pos hcond]
        rw [ih (s.subscriber.id :: seen) (acc ++ [weeklyDetailOf s]), List.map_cons]
        simp only [dedupPairsAux, pairOf, if_neg hseen]
        simp [detPairOf, weeklyDetailOf]
    · have hfb : ¬ (isWeeklySlotOn w s = true) := by
        simp only [isWeeklySlotOn, Bool.and_eq_true, beq_iff_eq]
        exact hf
      rw [List.filter_cons_of_neg hfb]
      have hcond : ¬ (s.recurrence_type = "weekly" ∧ s.date.weekday = w
          ∧ s.subscriber.id ∉ seen) := fun h => hf ⟨h.1, h.2.1⟩
      simp only [weeklyBucketAux, if_neg hcond]
      exact ih seen acc

theorem pure_filter_pairs (a : Availability) (range : List Date) (w : Nat) :
    ((slotsOfAvailPure a range).filter (isWeeklySlotOn w)).map pairOf
      = weeklyPairChunk a range w := by
  cases hown : a.owner with
  | none => simp [slotsOfAvailPure, weeklyPairChunk, hown]
  | some sub =>
    simp only [slotsOfAvailPure, weeklyPairChunk, hown]
    by_cases hrec : a.recurrence_type = "weekly"
    · by_cases hdow : a.day_of_week = some w
      · rw [if_pos ⟨hrec, hdow⟩, filter_flatMap, mapFlatMap]
        have hper : ∀ d ∈ applicableDates a range,
            ((a.time_slots.map (pureSlot sub a d)).filter (isWeeklySlotOn w)).map pairOf
              = List.replicate a.time_slots.length (sub.id, a.availability_type) := by
          intro d hd
          have happ := (List.mem_filter.mp hd).2
          rw [appliesOn, if_pos hrec, hdow] at happ
          have hwd : d.weekday = w := by
            have := beq_iff_eq.mp happ
            exact (Option.some.injEq _ _ ▸ this).symm
          have hkeep : (a.time_slots.map (pureSlot sub a d)).filter (isWeeklySlotOn w)
              = a.time_slots.map (pureSlot sub a d) := by
            apply List.filter_eq_self.mpr
            intro s hs
            rcases List.mem_map.mp hs with ⟨ts, _, rfl⟩
            simp [isWeeklySlotOn, pureSlot, hrec, hwd]
          rw [hkeep, List.map_map]
          have : (pairOf ∘ pureSlot sub a d)
              = fun _ => (sub.id, a.availability_type) := by
            funext ts
            simp [pairOf, pureSlot, subscriberInfoOf]
          rw [this, map_const_replicate]
        rw [flatMapCongr _ _
          (fun _ => List.replicate a.time_slots.length (sub.id, a.availability_type)) hper]
        rw [flatMap_replicate_const]
      · rw [if_neg (fun h => hdow h.2), filter_flatMap]
        have hz : ∀ d ∈ applicableDates a range,
            (a.time_slots.map (pureSlot sub a d)).filter (isWeeklySlotOn w) = [] := by
          intro d hd
          have happ := (List.mem_filter.mp hd).2
          rw [appliesOn, if_pos hrec] at happ
          cases hdw : a.day_of_week with
          | none => rw [hdw] at happ; cases happ
          | some w' =>
            rw [hdw] at happ
            have hwd : d.weekday = w' := by
              have := beq_iff_eq.mp happ
              exact (Option.some.injEq _ _ ▸ this).symm
            have hww : w' ≠ w := fun h => hdow (by rw [hdw, h])
            rw [List.filter_eq_nil_iff]
            intro s hs
            rcases List.mem_map.mp hs with ⟨ts, _, rfl⟩
            simp [isWeeklySlotOn, pureSlot, hwd, hww]
        rw [flatMapCongr _ _ (fun _ => []) hz]
        simp
    · rw [if_neg (fun h => hrec h.1), filter_flatMap]
      have hz : ∀ d ∈ applicableDates a range,
          (a.time_slots.map (pureSlot sub a d)).filter (isWeeklySlotOn w) = [] := by
        intro d _
        rw [List.filter_eq_nil_iff]
        intro s hs
        rcases List.mem_map.mp hs with ⟨ts, _, rfl⟩
        simp [isWeeklySlotOn, pureSlot, hrec]
      rw [flatMapCongr _ _ (fun _ => []) hz]
      simp

theorem dedupPairsAux_replicate_succ (p : SubId × Conf) (n : Nat) :
    ∀ (seen : List SubId) (l : List (SubId × Conf)),
      dedupPairsAux seen (List.replicate (n + 1) p ++ l)
        = if p.1 ∈ seen then dedupPairsAux seen l
          else p :: dedupPairsAux (p.1 :: seen) l := by
  induction n with
  | zero =>
    intro seen l
    simp [dedupPairsAux]
  | succ m ih =>
    intro seen l
    rw [List.replicate_succ, List.cons_append]
    show (if p.1 ∈ seen then dedupPairsAux seen (List.replicate (m + 1) p ++ l)
        else p :: dedupPairsAux (p.1 :: seen) (List.replicate (m + 1) p ++ l))
      = if p.1 ∈ seen then dedupPairsAux seen l else p :: dedupPairsAux (p.1 :: seen) l
    by_cases hp : p.1 ∈ seen
    · rw [if_pos hp, if_pos hp, ih seen l, if_pos hp]
    · rw [if_neg hp, if_neg hp, ih (p.1 :: seen) l, if_pos (List.mem_cons_self _ _)]

theorem dedupPairs_chunks_congr {β : Type} (pF : β → SubId × Conf) (m1 m2 : β → Nat) :
    ∀ as : List β, (∀ a ∈ as, m1 a = 0 ↔ m2 a = 0) →
      ∀ seen, dedupPairsAux seen (as.flatMap (fun a => List.replicate (m1 a) (pF a)))
        = dedupPairsAux seen (as.flatMap (fun a => List.replicate (m2 a) (pF a))) := by
  intro as
  induction as with
  | nil => intro _ seen; rfl
  | cons a t ih =>
    intro hz seen
    have hza := hz a (List.mem_cons_self a t)
    have hzt := fun b hb => hz b (List.mem_cons_of_mem a hb)
    rw [List.flatMap_cons, List.flatMap_cons]
    cases hm1 : m1 a with
    | zero =>
      have hm2 : m2 a = 0 := hza.mp hm1
      rw [hm2]
      simp only [List.replicate_zero, List.nil_append]
      exact ih hzt seen
    | succ n =>
      cases hm2 : m2 a with
      | zero =>
        have : m1 a = 0 := hza.mpr hm2
        rw [this] at hm1
        cases hm1
      | succ n2 =>
        rw [dedupPairsAux_replicate_succ, dedupPairsAux_replicate_succ]
        by_cases hp : (pF a).1 ∈ seen
        · rw [if_pos hp, if_pos hp]
          exact ih hzt seen
        · rw [if_neg hp, if_neg hp, ih hzt ((pF a).1 :: seen)]

theorem chunkLen_zero_iff (a : Availability) (r1 r2 : List Date) (w : Nat)
    (hw : (∃ d ∈ r1, d.weekday = w) ↔ (∃ d ∈ r2, d.weekday = w)) :
    chunkLen a r1 w = 0 ↔ chunkLen a r2 w = 0 := by
  cases hown : a.owner with
  | none => simp [chunkLen, hown]
  | some sub =>
    by_cases hc : a.recurrence_type = "weekly" ∧ a.day_of_week = some w
    · simp only [chunkLen, hown, if_pos hc, Nat.mul_eq_zero, List.length_eq_zero]
      have happl : ∀ r : List Date, (applicableDates a r = []) ↔ ¬ ∃ d ∈ r, d.weekday = w := by
        intro r
        rw [applicableDates, List.filter_eq_nil_iff]
        constructor
        · rintro h ⟨d, hd, hwd⟩
          refine h d hd ?_
          rw [appliesOn, if_pos hc.1, hc.2, hwd]
          simp
        · intro h d hd happ
          rw [appliesOn, if_pos hc.1, hc.2] at happ
          exact h ⟨d, hd, (Option.some.injEq _ _ ▸ beq_iff_eq.mp happ).symm⟩
      rw [happl r1, happl r2, not_iff_not.mpr hw]
    · simp [chunkLen, hown, if_neg hc]

/-- C8 counterexample: one Weekly/Monday rule; a range consisting of a Monday
and a range consisting of a Tuesday produce different weekly summaries (sure
count 1 vs 0 for Monday), refuting range-independence. -/
theorem C8_counterexample :
    collect_subscriber_slots [c7good] [exMonday]
      = .ok [⟨⟨.user 1, "alice", "alice@example.com", "registered", .sure⟩,
              exMonday, 540, 600, "weekly"⟩] ∧
    collect_subscriber_slots [c7good] [exTuesday] = .ok [] ∧
    prepare_weekly_summary [⟨⟨.user 1, "alice", "alice@example.com", "registered", .sure⟩,
        exMonday, 540, 600, "weekly"⟩] ≠ prepare_weekly_summary [] ∧
    (mkWeeklyBucket (weeklyBucket [⟨⟨.user 1, "alice", "alice@example.com", "registered",
        .sure⟩, exMonday, 540, 600, "weekly"⟩] 0)).sure_count = 1 ∧
    (mkWeeklyBucket (weeklyBucket [] 0)).sure_count = 0 :=
  ⟨rfl, rfl, by decide, by decide, by decide⟩

/-- C8 (amended): the weekly summary depends on the date range only through
the set of weekdays occurring in it — for a fixed rule set, two date ranges in
which the same weekdays occur yield, for every weekday bucket, the same
deduplicated subscriber identity/confidence sequence and the same
subscriber/sure/maybe counts.  (It is not independent of the range: a range
missing a weekday empties that weekday's bucket.) -/
theorem C8_weekly_summary_weekday_dependence (avails : List Availability)
    (r1 r2 : List Date) (s1 s2 : List SubSlot)
    (hw : ∀ w : Nat, (∃ d ∈ r1, d.weekday = w) ↔ (∃ d ∈ r2, d.weekday = w))
    (h1 : collect_subscriber_slots avails r1 = .ok s1)
    (h2 : collect_subscriber_slots avails r2 = .ok s2) :
    ∀ (w : Nat) (b1 b2 : WeeklyBucket),
      (w, b1) ∈ prepare_weekly_summary s1 → (w, b2) ∈ prepare_weekly_summary s2 →
      b1.subscribers.map detPairOf = b2.subscribers.map detPairOf ∧
      b1.subscriber_count = b2.subscriber_count ∧
      b1.sure_count = b2.sure_count ∧ b1.maybe_count = b2.maybe_count := by
  intro w b1 b2 hb1 hb2
  have hinv1 : b1 = mkWeeklyBucket (weeklyBucket s1 w) := by
    rcases List.mem_map.mp hb1 with ⟨w', _, heq⟩
    rw [Prod.mk.injEq] at heq
    obtain ⟨rfl, rfl⟩ := heq
    rfl
  have hinv2 : b2 = mkWeeklyBucket (weeklyBucket s2 w) := by
    rcases List.mem_map.mp hb2 with ⟨w', _, heq⟩
    rw [Prod.mk.injEq] at heq
    obtain ⟨rfl, rfl⟩ := heq
    rfl
  have hpairs : (weeklyBucket s1 w).map detPairOf = (weeklyBucket s2 w).map detPairOf := by
    have hkey : ∀ (r : List Date) (s : List SubSlot),
        collect_subscriber_slots avails r = .ok s →
        (weeklyBucket s w).map detPairOf
          = dedupPairsAux []
              (avails.flatMap (fun a => List.replicate (chunkLen a r w) (chunkPair a))) := by
      intro r s hcol
      rw [weeklyBucket, weeklyBucketAux_pairs w s [] [], List.map_nil, List.nil_append]
      rw [collect_ok_eq avails r s hcol, filter_flatMap, mapFlatMap]
      congr 1
      refine flatMapCongr _ _ _ ?_
      intro a _
      rw [pure_filter_pairs, weeklyPairChunk_eq_replicate]
    rw [hkey r1 s1 h1, hkey r2 s2 h2]
    exact dedupPairs_chunks_congr chunkPair (fun a => chunkLen a r1 w)
      (fun a => chunkLen a r2 w) avails
      (fun a _ => chunkLen_zero_iff a r1 r2 w (hw w)) []
  subst hinv1
  subst hinv2
  have hlen : (weeklyBucket s1 w).length = (weeklyBucket s2 w).length := by
    have := congrArg List.length hpairs
    simpa using this
  have hcount : ∀ c : Conf,
      ((weeklyBucket s1 w).filter (fun det => det.availability_type == c)).length
        = ((weeklyBucket s2 w).filter (fun det => det.availability_type == c)).length := by
    intro c
    have hf : ∀ s : List SubSlot,
        ((weeklyBucket s w).filter (fun det => det.availability_type == c)).length
          = (((weeklyBucket s w).map detPairOf).filter (fun p => p.2 == c)).length := by
      intro s
      rw [filterMapComm, List.length_map]
      rfl
    rw [hf s1, hf s2, hpairs]
  exact ⟨hpairs, hlen, hcount .sure, hcount .maybe⟩

/-- The slots of the C8 witness over the first Monday range. -/
def c8slots1 : List SubSlot :=
  [⟨⟨.user 1, "alice", "alice@example.com", "registered", .sure⟩, exMonday, 540, 600,
    "weekly"⟩]

/-- The slots of the C8 witness over the second Monday range. -/
def c8slots2 : List SubSlot :=
  [⟨⟨.user 1, "alice", "alice@example.com", "registered", .sure⟩, exMonday2, 540, 600,
    "weekly"⟩]

/-- Witness for C8 (amended): two different single-Monday ranges give the same
Monday bucket. -/
theorem C8_weekly_summary_weekday_dependence_witness :
    (mkWeeklyBucket (weeklyBucket c8slots1 0)).subscribers.map detPairOf
      = (mkWeeklyBucket (weeklyBucket c8slots2 0)).subscribers.map detPairOf ∧
    (mkWeeklyBucket (weeklyBucket c8slots1 0)).subscriber_count
      = (mkWeeklyBucket (weeklyBucket c8slots2 0)).subscriber_count ∧
    (mkWeeklyBucket (weeklyBucket c8slots1 0)).sure_count
      = (mkWeeklyBucket (weeklyBucket c8slots2 0)).sure_count ∧
    (mkWeeklyBucket (weeklyBucket c8slots1 0)).maybe_count
      = (mkWeeklyBucket (weeklyBucket c8slots2 0)).maybe_count := by
  have hw : ∀ w : Nat, (∃ d ∈ [exMonday], d.weekday = w) ↔ (∃ d ∈ [exMonday2], d.weekday = w) := by
    intro w
    constructor
    · rintro ⟨d, hd, hwd⟩
      rcases List.mem_singleton.mp hd with rfl
      exact ⟨exMonday2, List.mem_singleton.mpr rfl, hwd⟩
    · rintro ⟨d, hd, hwd⟩
      rcases List.mem_singleton.mp hd with rfl
      exact ⟨exMonday, List.mem_singleton.mpr rfl, hwd⟩
  exact C8_weekly_summary_weekday_dependence [c7good] [exMonday] [exMonday2]
    c8slots1 c8slots2 hw rfl rfl 0
    (mkWeeklyBucket (weeklyBucket c8slots1 0)) (mkWeeklyBucket (weeklyBucket c8slots2 0))
    (by decide) (by decide)

/-! ## C2 — adjacent atomic intervals -/

theorem mem_insertSortedDedup (x y : Nat) (l : List Nat) :
    y ∈ insertSortedDedup x l ↔ y = x ∨ y ∈ l := by
  induction l with
  | nil => simp [insertSortedDedup]
  | cons z t ih =>
    by_cases h1 : x < z
    · simp only [insertSortedDedup, if_pos h1, List.mem_cons]
    · by_cases h2 : x = z
      · subst h2
        simp [insertSortedDedup, h1]
      · simp only [insertSortedDedup, if_neg h1, if_neg h2, List.mem_cons, ih]
        tauto

theorem sorted_insertSortedDedup (x : Nat) (l : List Nat)
    (h : l.Sorted (· < ·)) : (insertSortedDedup x l).Sorted (· < ·) := by
  induction l with
  | nil => simp [insertSortedDedup]
  | cons z t ih =>
    rw [List.sorted_cons] at h
    by_cases h1 : x < z
    · simp only [insertSortedDedup, if_pos h1]
      rw [List.sorted_cons]
      constructor
      · intro b hb
        rcases List.mem_cons.mp hb with rfl | hbt
        · exact h1
        · exact lt_trans h1 (h.1 b hbt)
      · rw [List.sorted_cons]
        exact h
    · by_cases h2 : x = z
      · simp only [insertSortedDedup, if_neg h1, if_pos h2]
        rw [List.sorted_cons]
        exact h
      · simp only [insertSortedDedup, if_neg h1, if_neg h2]
        rw [List.sorted_cons]
        refine ⟨?_, ih h.2⟩
        intro b hb
        rcases (mem_insertSortedDedup x b t).mp hb with rfl | hbt
        · omega
        · exact h.1 b hbt

theorem sortedDedup_sorted (l : List Nat) : (sortedDedup l).Sorted (· < ·) := by
  induction l with
  | nil => simp [sortedDedup]
  | cons x t ih => exact sorted_insertSortedDedup x _ ih

theorem mem_sortedDedup (l : List Nat) (y : Nat) : y ∈ sortedDedup l ↔ y ∈ l := by
  induction l with
  | nil => simp [sortedDedup]
  | cons x t ih =>
    show y ∈ insertSortedDedup x (sortedDedup t) ↔ _
    rw [mem_insertSortedDedup, ih, List.mem_cons]

theorem consecPairs_sorted_facts :
    ∀ l : List Nat, l.Sorted (· < ·) → ∀ a b : Nat, (a, b) ∈ consecPairs l →
      a < b ∧ a ∈ l ∧ b ∈ l ∧ ∀ x ∈ l, x ≤ a ∨ b ≤ x := by
  intro l
  induction l with
  | nil =>
    intro _ a b hab
    simp [consecPairs] at hab
  | cons y t ih =>
    intro hs a b hab
    cases t with
    | nil => simp [consecPairs] at hab
    | cons z t2 =>
      rw [List.sorted_cons] at hs
      simp only [consecPairs, List.mem_cons] at hab
      rcases hab with heq | htail
      · rw [Prod.mk.injEq] at heq
        obtain ⟨rfl, rfl⟩ := heq
        refine ⟨hs.1 b (List.mem_cons_self b t2), List.mem_cons_self _ _,
          List.mem_cons_of_mem _ (List.mem_cons_self b t2), ?_⟩
        intro x hx
        rcases List.mem_cons.mp hx with rfl | hx2
        · exact Or.inl le_rfl
        · rcases List.mem_cons.mp hx2 with rfl | hx3
          · exact Or.inr le_rfl
          · exact Or.inr (le_of_lt ((List.sorted_cons.mp hs.2).1 x hx3))
      · have hres := ih hs.2 a b htail
        refine ⟨hres.1, List.mem_cons_of_mem _ hres.2.1,
          List.mem_cons_of_mem _ hres.2.2.1, ?_⟩
        intro x hx
        rcases List.mem_cons.mp hx with rfl | hx2
        · exact Or.inl (le_of_lt (hs.1 a hres.2.1))
        · exact hres.2.2.2 x hx2

theorem mem_boundariesFor (slots : List SubSlot) (d : Date) (b : Nat) :
    b ∈ boundariesFor slots d ↔
      ∃ s ∈ slots, s.date = d ∧ (s.startMin = b ∨ s.endMin = b) := by
  rw [boundariesFor, mem_sortedDedup, List.mem_flatMap]
  constructor
  · rintro ⟨s, hs, hb⟩
    have hmem := List.mem_filter.mp hs
    simp only [List.mem_cons, List.not_mem_nil, or_false] at hb
    refine ⟨s, hmem.1, by simpa using hmem.2, ?_⟩
    rcases hb with h | h
    · exact Or.inl h.symm
    · exact Or.inr h.symm
  · rintro ⟨s, hs, hd, hse⟩
    refine ⟨s, List.mem_filter.mpr ⟨hs, by simp [hd]⟩, ?_⟩
    rcases hse with h | h <;> simp [h]

theorem analyzeDate_mem_inv (slots : List SubSlot) (d : Date) (en : Entry)
    (h : en ∈ analyzeDate slots d) :
    en.date = d ∧
    (en.startMin, en.endMin) ∈ consecPairs (boundariesFor slots d) ∧
    (en.sure, en.maybe) = periodSubscribers slots d en.startMin en.endMin := by
  rcases List.mem_filterMap.mp h with ⟨pq, hpq, hsome⟩
  by_cases hc : (periodSubscribers slots d pq.1 pq.2).1 = []
      ∧ (periodSubscribers slots d pq.1 pq.2).2 = []
  · rw [if_pos hc] at hsome
    cases hsome
  · rw [if_neg hc] at hsome
    cases hsome
    refine ⟨rfl, ?_, rfl⟩
    simpa using hpq

theorem mem_analyze_self (slots : List SubSlot) (en : Entry)
    (h : en ∈ analyze_time_periods slots) : en ∈ analyzeDate slots en.date := by
  rcases List.mem_flatMap.mp h with ⟨d', _, h'⟩
  rwa [analyzeDate_mem_date slots d' en h']

/-- The covering-subscriber identities of one reported atomic interval (the
`sure` and `maybe` lists merged, by identity). -/
def idsOfEntry (en : Entry) : List SubId :=
  en.sure.map SubscriberDetail.id ++ en.maybe.map SubscriberDetail.id

theorem periodSubsAux_mem_ids (d : Date) (ps pe : Nat) :
    ∀ (slots : List SubSlot) (seen : List SubId) (su mb : List SubscriberDetail) (i : SubId),
      (i ∈ (periodSubsAux d ps pe slots seen su mb).1.map SubscriberDetail.id
        ∨ i ∈ (periodSubsAux d ps pe slots seen su mb).2.map SubscriberDetail.id) ↔
      ((i ∈ su.map SubscriberDetail.id ∨ i ∈ mb.map SubscriberDetail.id)
        ∨ (i ∉ seen ∧ ∃ s ∈ slots, s.date = d ∧ s.startMin ≤ ps ∧ pe ≤ s.endMin
            ∧ s.subscriber.id = i)) := by
  intro slots
  induction slots with
  | nil =>
    intro seen su mb i
    simp [periodSubsAux]
  | cons s t ih =>
    intro seen su mb i
    by_cases hc : s.date = d ∧ s.startMin ≤ ps ∧ pe ≤ s.endMin
    · by_cases hseen : s.subscriber.id ∈ seen
      · simp only [periodSubsAux, if_pos hc, if_pos hseen]
        rw [ih seen su mb i]
        constructor
        · rintro (hacc | ⟨hnot, s', hs', hrest⟩)
          · exact Or.inl hacc
          · exact Or.inr ⟨hnot, s', List.mem_cons_of_mem _ hs', hrest⟩
        · rintro (hacc | ⟨hnot, s', hs', hd, hl1, hl2, hid⟩)
          · exact Or.inl hacc
          · rcases List.mem_cons.mp hs' with rfl | hst
            · exact absurd (hid ▸ hseen) hnot
            · exact Or.inr ⟨hnot, s', hst, hd, hl1, hl2, hid⟩
      · cases hconf : s.subscriber.availability_type with
        | sure =>
          simp only [periodSubsAux, if_pos hc, if_neg hseen, hconf]
          rw [ih _ _ _ i]
          constructor
          · rintro (hacc | ⟨hnot, s', hs', hrest⟩)
            · rcases hacc with hsu | hmb
              · rw [List.map_append] at hsu
                rcases List.mem_append.mp hsu with hin | hin
                · exact Or.inl (Or.inl hin)
                · simp only [List.map_cons, List.map_nil, List.mem_singleton] at hin
                  exact Or.inr ⟨hin ▸ hseen, s, List.mem_cons_self s t,
                    hc.1, hc.2.1, hc.2.2, hin.symm⟩
              · exact Or.inl (Or.inr hmb)
            · have hni : i ∉ seen := fun hh => hnot (List.mem_cons_of_mem _ hh)
              exact Or.inr ⟨hni, s', List.mem_cons_of_mem _ hs', hrest⟩
          · rintro (hacc | ⟨hnot, s', hs', hd, hl1, hl2, hid⟩)
            · rcases hacc with hsu | hmb
              · exact Or.inl (Or.inl (by
                  rw [List.map_append]
                  exact List.mem_append_left _ hsu))
              · exact Or.inl (Or.inr hmb)
            · rcases List.mem_cons.mp hs' with rfl | hst
              · refine Or.inl (Or.inl ?_)
                rw [List.map_append]
                refine List.mem_append_right _ ?_
                simp [hid.symm]
              · by_cases his : i = s.subscriber.id
                · refine Or.inl (Or.inl ?_)
                  rw [List.map_append]
                  refine List.mem_append_right _ ?_
                  simp [his]
                · refine Or.inr ⟨?_, s', hst, hd, hl1, hl2, hid⟩
                  intro hh
                  rcases List.mem_cons.mp hh with h | h
                  · exact his h
                  · exact hnot h
        | maybe =>
          simp only [periodSubsAux, if_pos hc, if_neg hseen, hconf]
          rw [ih _ _ _ i]
          constructor
          · rintro (hacc | ⟨hnot, s', hs', hrest⟩)
            · rcases hacc with hsu | hmb
              · exact Or.inl (Or.inl hsu)
              · rw [List.map_append] at hmb
                rcases List.mem_append.mp hmb with hin | hin
                · exact Or.inl (Or.inr hin)
                · simp only [List.map_cons, List.map_nil, List.mem_singleton] at hin
                  exact Or.inr ⟨hin ▸ hseen, s, List.mem_cons_self s t,
                    hc.1, hc.2.1, hc.2.2, hin.symm⟩
            · have hni : i ∉ seen := fun hh => hnot (List.mem_cons_of_mem _ hh)
              exact Or.inr ⟨hni, s', List.mem_cons_of_mem _ hs', hrest⟩
          · rintro (hacc | ⟨hnot, s', hs', hd, hl1, hl2, hid⟩)
            · rcases hacc with hsu | hmb
              · exact Or.inl (Or.inl hsu)
              · exact Or.inl (Or.inr (by
                  rw [List.map_append]
                  exact List.mem_append_left _ hmb))
            · rcases List.mem_cons.mp hs' with rfl | hst
              · refine Or.inl (Or.inr ?_)
                rw [List.map_append]
                refine List.mem_append_right _ ?_
                simp [hid.symm]
              · by_cases his : i = s.subscriber.id
                · refine Or.inl (Or.inr ?_)
                  rw [List.map_append]
                  refine List.mem_append_right _ ?_
                  simp [his]
                · refine Or.inr ⟨?_, s', hst, hd, hl1, hl2, hid⟩
                  intro hh
                  rcases List.mem_cons.mp hh with h | h
                  · exact his h
                  · exact hnot h
    · simp only [periodSubsAux, if_neg hc]
      rw [ih seen su mb i]
      constructor
      · rintro (hacc | ⟨hnot, s', hs', hrest⟩)
        · exact Or.inl hacc
        · exact Or.inr ⟨hnot, s', List.mem_cons_of_mem _ hs', hrest⟩
      · rintro (hacc | ⟨hnot, s', hs', hd, hl1, hl2, hid⟩)
        · exact Or.inl hacc
        · rcases List.mem_cons.mp hs' with rfl | hst
          · exact absurd ⟨hd, hl1, hl2⟩ hc
          · exact Or.inr ⟨hnot, s', hst, hd, hl1, hl2, hid⟩

theorem periodSubscribers_mem_ids (slots : List SubSlot) (d : Date) (ps pe : Nat)
    (i : SubId) :
    (i ∈ (periodSubscribers slots d ps pe).1.map SubscriberDetail.id
      ∨ i ∈ (periodSubscribers slots d ps pe).2.map SubscriberDetail.id) ↔
    ∃ s ∈ slots, s.date = d ∧ s.startMin ≤ ps ∧ pe ≤ s.endMin ∧ s.subscriber.id = i := by
  rw [periodSubscribers, periodSubsAux_mem_ids]
  simp

theorem entry_ids_iff (slots : List SubSlot) (d : Date) (en : Entry)
    (h : en ∈ analyzeDate slots d) (i : SubId) :
    i ∈ idsOfEntry en ↔
      ∃ s ∈ slots, s.date = d ∧ s.startMin ≤ en.startMin ∧ en.endMin ≤ s.endMin
        ∧ s.subscriber.id = i := by
  have hinv := analyzeDate_mem_inv slots d en h
  have hsu : en.sure = (periodSubscribers slots d en.startMin en.endMin).1 :=
    congrArg Prod.fst hinv.2.2
  have hmb : en.maybe = (periodSubscribers slots d en.startMin en.endMin).2 :=
    congrArg Prod.snd hinv.2.2
  rw [idsOfEntry, List.mem_append, hsu, hmb, periodSubscribers_mem_ids]

/-- A rule set of Example-2 shape with one subscriber declaring the two
adjacent slots 09:00–10:00 and 10:00–11:00. -/
def c2avail : Availability :=
  ⟨some exSubA, "weekly", some 0, none, none,
    [⟨"09:00", "10:00"⟩, ⟨"10:00", "11:00"⟩], .sure⟩

/-- Subscriber A's collected info for the C2 inputs. -/
def c2infoA : SubscriberInfo := ⟨.user 1, "alice", "alice@example.com", "registered", .sure⟩

/-- The collected C2 slots on the Monday. -/
def c2slots : List SubSlot :=
  [⟨c2infoA, exMonday, 540, 600, "weekly"⟩, ⟨c2infoA, exMonday, 600, 660, "weekly"⟩]

/-- The first reported interval of the C2 counterexample. -/
def c2E1 : Entry :=
  ⟨exMonday, 540, 600,
    [⟨.user 1, "alice", "alice@example.com", "registered", .sure, 540, 600, exMonday, 0,
      "weekly"⟩], []⟩

/-- The second reported interval of the C2 counterexample. -/
def c2E2 : Entry :=
  ⟨exMonday, 600, 660,
    [⟨.user 1, "alice", "alice@example.com", "registered", .sure, 600, 660, exMonday, 0,
      "weekly"⟩], []⟩

/-- C2 counterexample: a subscriber with the adjacent slots 09:00–10:00 and
10:00–11:00 yields two adjacent atomic intervals with the *same*
covering-subscriber set — the decomposer does not merge them, refuting the
maximality claim. -/
theorem C2_counterexample :
    collect_subscriber_slots [c2avail] [exMonday] = .ok c2slots ∧
    analyze_time_periods c2slots = [c2E1, c2E2] ∧
    c2E1.date = c2E2.date ∧ c2E1.endMin = c2E2.startMin ∧
    idsOfEntry c2E1 = idsOfEntry c2E2 :=
  ⟨rfl, by decide, by decide, by decide, by decide⟩

/-- C2 (amended): provided every slot satisfies `start < end` (the declared
data invariant) and no subscriber has two slots on the interval's date, two
adjacent reported atomic intervals on the same date never have the same
covering-subscriber set; without the one-slot-per-subscriber condition,
adjacent intervals with identical covering sets do occur (see the
counterexample). -/
theorem C2_adjacent_intervals (avails : List Availability) (range : List Date)
    (slots : List SubSlot) (E1 E2 : Entry)
    (_hcol : collect_subscriber_slots avails range = .ok slots)
    (hlt : ∀ s ∈ slots, s.startMin < s.endMin)
    (huni : ((slots.filter (fun s => s.date == E1.date)).map
        (fun s => s.subscriber.id)).Nodup)
    (h1 : E1 ∈ analyze_time_periods slots) (h2 : E2 ∈ analyze_time_periods slots)
    (hdate : E2.date = E1.date) (hadj : E1.endMin = E2.startMin) :
    ¬ (∀ i : SubId, i ∈ idsOfEntry E1 ↔ i ∈ idsOfEntry E2) := by
  intro hiff
  have h1d := mem_analyze_self slots E1 h1
  have h2d := mem_analyze_self slots E2 h2
  rw [hdate] at h2d
  have hinv1 := analyzeDate_mem_inv slots E1.date E1 h1d
  have hinv2 := analyzeDate_mem_inv slots E1.date E2 h2d
  have hsorted : (boundariesFor slots E1.date).Sorted (· < ·) := sortedDedup_sorted _
  have hf1 := consecPairs_sorted_facts _ hsorted E1.startMin E1.endMin hinv1.2.1
  have hf2 := consecPairs_sorted_facts _ hsorted E2.startMin E2.endMin hinv2.2.1
  obtain ⟨sb, hsbmem, hsbd, hsbse⟩ :=
    (mem_boundariesFor slots E1.date E1.endMin).mp hf1.2.2.1
  have hids1 := fun i => entry_ids_iff slots E1.date E1 h1d i
  have hids2 := fun i => entry_ids_iff slots E1.date E2 h2d i
  have hinj : ∀ s' ∈ slots, ∀ s'' ∈ slots, s'.date = E1.date → s''.date = E1.date →
      s'.subscriber.id = s''.subscriber.id → s' = s'' := by
    intro s' h' s'' h'' hda hdb hid
    exact List.inj_on_of_nodup_map huni
      (List.mem_filter.mpr ⟨h', by simp [hda]⟩)
      (List.mem_filter.mpr ⟨h'', by simp [hdb]⟩) hid
  rcases hsbse with hstart | hend
  · -- the boundary is `sb`'s start: `sb` covers E2's interval but not E1's
    have hsbend_mem : sb.endMin ∈ boundariesFor slots E1.date :=
      (mem_boundariesFor _ _ _).mpr ⟨sb, hsbmem, hsbd, Or.inr rfl⟩
    have hblt : E1.endMin < sb.endMin := by
      have := hlt sb hsbmem
      omega
    have hcle : E2.endMin ≤ sb.endMin := by
      rcases hf2.2.2.2 sb.endMin hsbend_mem with h | h
      · omega
      · exact h
    have hin2 : sb.subscriber.id ∈ idsOfEntry E2 :=
      (hids2 _).mpr ⟨sb, hsbmem, hsbd, by omega, hcle, rfl⟩
    have hin1 := (hiff sb.subscriber.id).mpr hin2
    rcases (hids1 _).mp hin1 with ⟨s', hs'mem, hs'd, hs'le, hs'ge, hs'id⟩
    have heq : s' = sb := hinj s' hs'mem sb hsbmem hs'd hsbd hs'id
    subst heq
    have := hf1.1
    omega
  · -- the boundary is `sb`'s end: `sb` covers E1's interval but not E2's
    have hsbstart_mem : sb.startMin ∈ boundariesFor slots E1.date :=
      (mem_boundariesFor _ _ _).mpr ⟨sb, hsbmem, hsbd, Or.inl rfl⟩
    have hblt : sb.startMin < E1.endMin := by
      have := hlt sb hsbmem
      omega
    have hale : sb.startMin ≤ E1.startMin := by
      rcases hf1.2.2.2 sb.startMin hsbstart_mem with h | h
      · exact h
      · omega
    have hin1 : sb.subscriber.id ∈ idsOfEntry E1 :=
      (hids1 _).mpr ⟨sb, hsbmem, hsbd, hale, by omega, rfl⟩
    have hin2 := (hiff sb.subscriber.id).mp hin1
    rcases (hids2 _).mp hin2 with ⟨s', hs'mem, hs'd, hs'le, hs'ge, hs'id⟩
    have heq : s' = sb := hinj s' hs'mem sb hsbmem hs'd hsbd hs'id
    subst heq
    have := hf2.1
    omega

/-- First subscriber of the C2 witness: 09:00–10:00. -/
def c2wA : Availability :=
  ⟨some exSubA, "weekly", some 0, none, none, [⟨"09:00", "10:00"⟩], .sure⟩

/-- Second subscriber of the C2 witness: 09:00–11:00. -/
def c2wB : Availability :=
  ⟨some exSubB, "weekly", some 0, none, none, [⟨"09:00", "11:00"⟩], .sure⟩

/-- Subscriber B's collected info for the C2 witness. -/
def c2winfoB : SubscriberInfo := ⟨.user 2, "bob", "bob@example.com", "registered", .sure⟩

/-- The collected C2-witness slots on the Monday. -/
def c2wslots : List SubSlot :=
  [⟨c2infoA, exMonday, 540, 600, "weekly"⟩, ⟨c2winfoB, exMonday, 540, 660, "weekly"⟩]

/-- First reported interval of the C2 witness (covered by both). -/
def c2wE1 : Entry :=
  ⟨exMonday, 540, 600,
    [⟨.user 1, "alice", "alice@example.com", "registered", .sure, 540, 600, exMonday, 0,
      "weekly"⟩,
     ⟨.user 2, "bob", "bob@example.com", "registered", .sure, 540, 600, exMonday, 0,
      "weekly"⟩], []⟩

/-- Second reported interval of the C2 witness (covered by B only). -/
def c2wE2 : Entry :=
  ⟨exMonday, 600, 660,
    [⟨.user 2, "bob", "bob@example.com", "registered", .sure, 600, 660, exMonday, 0,
      "weekly"⟩], []⟩

/-- Witness for C2 (amended) at a concrete two-subscriber input. -/
theorem C2_adjacent_intervals_witness :
    ¬ (∀ i : SubId, i ∈ idsOfEntry c2wE1 ↔ i ∈ idsOfEntry c2wE2) :=
  C2_adjacent_intervals [c2wA, c2wB] [exMonday] c2wslots c2wE1 c2wE2 rfl
    (by decide) (by decide) (by decide) (by decide) rfl rfl

